import Mathlib

/-!
# Verification of the CG-TP1 raster-geometry core

Shallow embedding of the 2D raster-geometry engine of the CG-TP1 drawing
tool: the data model (`Point`, `Line`, `Circle`, `Rect4`, `Scene`), the
line rasterizers (DDA and Bresenham), the midpoint circle rasterizer, the
Cohen–Sutherland and Liang–Barsky line clippers, the pivot transforms, and
the scene-level `clip_lines` operation.

Python machine integers are unbounded, so coordinates are `ℤ`.  The
floating-point intermediate values of the clippers, the DDA rasterizer and
the transforms are idealized as exact rationals (`ℚ`); Python's
`int(round(x))` (round half to even) is embedded as `roundEven`.
-/

namespace TP1

/-- Python's `round` on a rational value: round to the nearest integer,
ties going to the even integer (banker's rounding, as in Python 3). -/
def roundEven (q : ℚ) : ℤ :=
  if q - ⌊q⌋ < 1/2 then ⌊q⌋
  else if 1/2 < q - ⌊q⌋ then ⌊q⌋ + 1
  else if ⌊q⌋ % 2 = 0 then ⌊q⌋ else ⌊q⌋ + 1

theorem roundEven_intCast (n : ℤ) : roundEven (n : ℚ) = n := by
  simp [roundEven]

theorem roundEven_eq_floor_or_ceil (q : ℚ) :
    roundEven q = ⌊q⌋ ∨ roundEven q = ⌊q⌋ + 1 := by
  unfold roundEven
  split_ifs <;> simp

theorem le_roundEven {a : ℤ} {q : ℚ} (h : (a : ℚ) ≤ q) : a ≤ roundEven q := by
  have hfl : a ≤ ⌊q⌋ := Int.le_floor.2 h
  rcases roundEven_eq_floor_or_ceil q with h' | h' <;> omega

theorem roundEven_le {a : ℤ} {q : ℚ} (h : q ≤ (a : ℚ)) : roundEven q ≤ a := by
  rcases roundEven_eq_floor_or_ceil q with h' | h'
  · have hfl : ⌊q⌋ ≤ ⌊(a : ℚ)⌋ := Int.floor_le_floor h
    rw [Int.floor_intCast] at hfl
    omega
  · -- in this case `1/2 ≤ q - ⌊q⌋`, so `q` is not an integer
    have hq : 1/2 ≤ q - ⌊q⌋ := by
      by_contra hcon
      push_neg at hcon
      rw [roundEven, if_pos hcon] at h'
      omega
    have hne : (⌊q⌋ : ℚ) ≠ q := by
      intro hEq
      rw [← hEq] at hq
      norm_num at hq
    have hlt : (⌊q⌋ : ℚ) < q := lt_of_le_of_ne (Int.floor_le q) hne
    have hfla : ⌊q⌋ < a := by
      by_contra hcon
      push_neg at hcon
      have : (a : ℚ) ≤ ⌊q⌋ := by exact_mod_cast hcon
      linarith
    omega

/-! ## Data model (`src/tp1/scene/models.py`) -/

/-- An integer raster point. -/
structure Point where
  x : ℤ
  y : ℤ
deriving DecidableEq, Repr

/-- Which rasterizer produced / should reproduce a line. -/
inductive LineAlgo where
  | DDA
  | BRESENHAM
deriving DecidableEq, Repr

/-- Circles only have one rasterizer tag. -/
inductive CircleAlgo where
  | BRESENHAM
deriving DecidableEq, Repr

/-- A line segment with its rasterizer tag. -/
structure Line where
  p0 : Point
  p1 : Point
  algo : LineAlgo
deriving DecidableEq, Repr

/-- A circle: center and integer radius. -/
structure Circle where
  c : Point
  r : ℤ
  algo : CircleAlgo := .BRESENHAM
deriving DecidableEq, Repr

/-- Construction of a `Circle` as done by the Python dataclass: the
`__post_init__` hook clamps a negative radius to `0`. -/
def Circle.make (c : Point) (r : ℤ) (algo : CircleAlgo := .BRESENHAM) : Circle :=
  if r < 0 then { c := c, r := 0, algo := algo } else { c := c, r := r, algo := algo }

/-- `(left, top, width, height)` — the axis-aligned rectangle type. -/
abbrev Rect4 : Type := ℤ × ℤ × ℤ × ℤ

/-- The ordered primitive lists of a scene. -/
structure Scene where
  lines : List Line
  circles : List Circle
deriving DecidableEq, Repr

/-! ## Cohen–Sutherland clipper (`src/tp1/algorithms/clipping/cohen_sutherland.py`) -/

namespace Clipping

/-- Region-code flags, as in the source: `INSIDE, LEFT, RIGHT, BOTTOM, TOP
= 0, 1, 2, 4, 8`. -/
def INSIDE : ℕ := 0

def LEFT : ℕ := 1

def RIGHT : ℕ := 2

def BOTTOM : ℕ := 4

def TOP : ℕ := 8

/-- `_edges`: derive `(left, top, right, bottom)` from a
`(left, top, width, height)` rectangle. -/
def edges (rect : Rect4) : ℤ × ℤ × ℤ × ℤ :=
  let (left, top, w, h) := rect
  (left, top, left + w, top + h)

/-- `_code`: the Cohen–Sutherland region code of a point. -/
def code (x y : ℤ) (rect : Rect4) : ℕ :=
  let (left, top, right, bottom) := edges rect
  (if x < left then LEFT else if x > right then RIGHT else INSIDE) |||
    (if y < top then TOP else if y > bottom then BOTTOM else INSIDE)

/-- The mutable state of the Cohen–Sutherland loop: the two current
endpoints. -/
structure CSState where
  x0 : ℤ
  y0 : ℤ
  x1 : ℤ
  y1 : ℤ
deriving DecidableEq, Repr

/-- The intersection point `(x, y)` computed by one Cohen–Sutherland
iteration for the out-code `code_out`, with the division-by-zero guards of
the source. -/
def csIntersect (rect : Rect4) (st : CSState) (code_out : ℕ) : ℚ × ℚ :=
  let (left, top, right, bottom) := edges rect
  if code_out &&& TOP ≠ 0 then
    (if st.y1 ≠ st.y0 then
        (st.x0 : ℚ) + ((st.x1 : ℚ) - st.x0) * ((top : ℚ) - st.y0) / ((st.y1 : ℚ) - st.y0)
      else (st.x0 : ℚ), (top : ℚ))
  else if code_out &&& BOTTOM ≠ 0 then
    (if st.y1 ≠ st.y0 then
        (st.x0 : ℚ) + ((st.x1 : ℚ) - st.x0) * ((bottom : ℚ) - st.y0) / ((st.y1 : ℚ) - st.y0)
      else (st.x0 : ℚ), (bottom : ℚ))
  else if code_out &&& RIGHT ≠ 0 then
    ((right : ℚ),
      if st.x1 ≠ st.x0 then
        (st.y0 : ℚ) + ((st.y1 : ℚ) - st.y0) * ((right : ℚ) - st.x0) / ((st.x1 : ℚ) - st.x0)
      else (st.y0 : ℚ))
  else -- LEFT
    ((left : ℚ),
      if st.x1 ≠ st.x0 then
        (st.y0 : ℚ) + ((st.y1 : ℚ) - st.y0) * ((left : ℚ) - st.x0) / ((st.x1 : ℚ) - st.x0)
      else (st.y0 : ℚ))

/-- One iteration of the Cohen–Sutherland `while True` loop: either a
final answer (`Sum.inl`) or the state for the next iteration
(`Sum.inr`). -/
def csStep (rect : Rect4) (st : CSState) : Option (Point × Point) ⊕ CSState :=
  let code0 := code st.x0 st.y0 rect
  let code1 := code st.x1 st.y1 rect
  if code0 ||| code1 = 0 then
    .inl (some (⟨st.x0, st.y0⟩, ⟨st.x1, st.y1⟩))
  else if code0 &&& code1 ≠ 0 then
    .inl none
  else
    -- Python `code_out = code0 or code1`
    let code_out := if code0 ≠ 0 then code0 else code1
    let xy := csIntersect rect st code_out
    if code_out = code0 then
      .inr ⟨roundEven xy.1, roundEven xy.2, st.x1, st.y1⟩
    else
      .inr ⟨st.x0, st.y0, roundEven xy.1, roundEven xy.2⟩

/-- The Cohen–Sutherland loop with explicit fuel.  `none` means the fuel
ran out; `some r` is the loop's answer.  (The termination theorem below
shows that fuel `7` always suffices for a well-formed rectangle.) -/
def csLoop (fuel : ℕ) (rect : Rect4) (st : CSState) : Option (Option (Point × Point)) :=
  match fuel with
  | 0 => none
  | n + 1 =>
    match csStep rect st with
    | .inl res => some res
    | .inr st' => csLoop n rect st'

/-- `cohen_sutherland_clip`: clip a segment against an axis-aligned rect.
Returns the new endpoints, or `none` if fully outside. -/
def cohen_sutherland_clip (p0 p1 : Point) (rect : Rect4) : Option (Point × Point) :=
  (csLoop 7 rect ⟨p0.x, p0.y, p1.x, p1.y⟩).join

/-! ## Liang–Barsky clipper (`src/tp1/algorithms/clipping/liang_barsky.py`) -/

/-- The body of the Liang–Barsky `for` loop over the four constraints
`p[i] * u <= q[i]`, threaded over the current `(u0, u1)` parameter window
(`none` once the segment has been rejected). -/
def lbStep (acc : Option (ℚ × ℚ)) (pq : ℤ × ℤ) : Option (ℚ × ℚ) :=
  match acc with
  | none => none
  | some (u0, u1) =>
    let (pi, qi) := pq
    if pi = 0 then
      if qi < 0 then none else some (u0, u1)
    else
      let r : ℚ := (qi : ℚ) / (pi : ℚ)
      if pi < 0 then
        if r > u1 then none
        else if r > u0 then some (r, u1) else some (u0, u1)
      else
        if r < u0 then none
        else if r < u1 then some (u0, r) else some (u0, u1)

/-- `liang_barsky_clip`: clip a segment against an axis-aligned rect using
the parametric Liang–Barsky method.  Returns the new endpoints, or `none`
if fully outside. -/
def liang_barsky_clip (p0 p1 : Point) (rect : Rect4) : Option (Point × Point) :=
  let x0 := p0.x
  let y0 := p0.y
  let dx := p1.x - x0
  let dy := p1.y - y0
  let (x_min, y_min, x_max, y_max) :=
    (let (left, top, right, bottom) := edges rect; (left, top, right, bottom))
  match List.foldl lbStep (some (0, 1))
      [(-dx, x0 - x_min), (dx, x_max - x0), (-dy, y0 - y_min), (dy, y_max - y0)] with
  | none => none
  | some (u0, u1) =>
    some (⟨roundEven ((x0 : ℚ) + u0 * dx), roundEven ((y0 : ℚ) + u0 * dy)⟩,
      ⟨roundEven ((x0 : ℚ) + u1 * dx), roundEven ((y0 : ℚ) + u1 * dy)⟩)

/-! ### Supporting lemmas about the clippers -/

theorem code_eq_zero {l t w h x y : ℤ} (hxl : l ≤ x) (hxr : x ≤ l + w)
    (hyt : t ≤ y) (hyb : y ≤ t + h) : code x y (l, t, w, h) = 0 := by
  unfold code edges INSIDE LEFT RIGHT BOTTOM TOP
  simp only []
  rw [if_neg (by omega), if_neg (by omega), if_neg (by omega), if_neg (by omega)]
  decide

/-- A Liang–Barsky constraint that the segment satisfies on both endpoints
leaves the full parameter window `(0, 1)` untouched. -/
theorem lbStep_keep01 {pi qi : ℤ} (h0 : pi = 0 → 0 ≤ qi) (hneg : pi < 0 → 0 ≤ qi)
    (hpos : 0 < pi → pi ≤ qi) : lbStep (some (0, 1)) (pi, qi) = some (0, 1) := by
  unfold lbStep
  simp only []
  rcases lt_trichotomy pi 0 with hlt | heq | hgt
  · rw [if_neg (by omega), if_pos hlt]
    have hq : 0 ≤ qi := hneg hlt
    have hr : (qi : ℚ) / (pi : ℚ) ≤ 0 := by
      apply div_nonpos_of_nonneg_of_nonpos
      · exact_mod_cast hq
      · exact_mod_cast hlt.le
    rw [if_neg (by push_neg; linarith), if_neg (by push_neg; linarith)]
  · rw [if_pos heq, if_neg (by have := h0 heq; omega)]
  · rw [if_neg (by omega), if_neg (by omega)]
    have hq : (pi : ℚ) ≤ (qi : ℚ) := by exact_mod_cast hpos hgt
    have hpiQ : (0 : ℚ) < (pi : ℚ) := by exact_mod_cast hgt
    have hr : (1 : ℚ) ≤ (qi : ℚ) / (pi : ℚ) := (one_le_div hpiQ).2 hq
    rw [if_neg (by push_neg; linarith), if_neg (by push_neg; linarith)]

/-! ### Termination infrastructure for the Cohen–Sutherland loop

The region code splits into an x-part (`0/1/2`) and a y-part (`0/4/8`)
living in disjoint bit ranges, so the bitwise tests of the loop translate
into plain comparisons on the coordinates. -/

/-- The x-contribution to a region code. -/
def xpart (l r x : ℤ) : ℕ := if x < l then 1 else if x > r then 2 else 0

/-- The y-contribution to a region code. -/
def ypart (t b y : ℤ) : ℕ := if y < t then 8 else if y > b then 4 else 0

theorem code_eq_add (x y l t w h : ℤ) :
    code x y (l, t, w, h) = xpart l (l + w) x + ypart t (t + h) y := by
  unfold code edges xpart ypart INSIDE LEFT RIGHT BOTTOM TOP
  simp only []
  split_ifs <;> decide

theorem xpart_le (l r x : ℤ) : xpart l r x ≤ 2 := by
  unfold xpart
  split_ifs <;> omega

theorem ypart_cases (t b y : ℤ) : ypart t b y = 0 ∨ ypart t b y = 4 ∨ ypart t b y = 8 := by
  unfold ypart
  split_ifs <;> simp

theorem xpart_eq_one_iff (l r x : ℤ) : xpart l r x = 1 ↔ x < l := by
  unfold xpart
  split_ifs <;> simp [*]

theorem xpart_eq_two_iff (l r x : ℤ) : xpart l r x = 2 ↔ (¬ x < l ∧ r < x) := by
  unfold xpart
  split_ifs <;> simp [*]

theorem xpart_eq_zero_iff (l r x : ℤ) : xpart l r x = 0 ↔ (¬ x < l ∧ ¬ r < x) := by
  unfold xpart
  split_ifs <;> simp [*]

theorem ypart_eq_eight_iff (t b y : ℤ) : ypart t b y = 8 ↔ y < t := by
  unfold ypart
  split_ifs <;> simp [*]

theorem ypart_eq_four_iff (t b y : ℤ) : ypart t b y = 4 ↔ (¬ y < t ∧ b < y) := by
  unfold ypart
  split_ifs <;> simp [*]

theorem ypart_eq_zero_iff (t b y : ℤ) : ypart t b y = 0 ↔ (¬ y < t ∧ ¬ b < y) := by
  unfold ypart
  split_ifs <;> simp [*]

theorem add_and_eight {a b : ℕ} (ha : a ≤ 2) (hb : b = 0 ∨ b = 4 ∨ b = 8) :
    (a + b) &&& 8 ≠ 0 ↔ b = 8 := by
  interval_cases a <;> rcases hb with hb | hb | hb <;> subst hb <;> decide

theorem add_and_four {a b : ℕ} (ha : a ≤ 2) (hb : b = 0 ∨ b = 4 ∨ b = 8) :
    (a + b) &&& 4 ≠ 0 ↔ b = 4 := by
  interval_cases a <;> rcases hb with hb | hb | hb <;> subst hb <;> decide

theorem add_and_two {a b : ℕ} (ha : a ≤ 2) (hb : b = 0 ∨ b = 4 ∨ b = 8) :
    (a + b) &&& 2 ≠ 0 ↔ a = 2 := by
  interval_cases a <;> rcases hb with hb | hb | hb <;> subst hb <;> decide

theorem add_lor_eq_zero {a b a' b' : ℕ} (ha : a ≤ 2) (hb : b = 0 ∨ b = 4 ∨ b = 8)
    (ha' : a' ≤ 2) (hb' : b' = 0 ∨ b' = 4 ∨ b' = 8) :
    (a + b) ||| (a' + b') = 0 ↔ (a + b = 0 ∧ a' + b' = 0) := by
  interval_cases a <;> interval_cases a' <;>
    rcases hb with hb | hb | hb <;> rcases hb' with hb' | hb' | hb' <;>
    subst hb <;> subst hb' <;> decide

theorem add_land_ne_zero {a b a' b' : ℕ} (ha : a ≤ 2) (hb : b = 0 ∨ b = 4 ∨ b = 8)
    (ha' : a' ≤ 2) (hb' : b' = 0 ∨ b' = 4 ∨ b' = 8) :
    (a + b) &&& (a' + b') ≠ 0 ↔ ((a = a' ∧ a ≠ 0) ∨ (b = b' ∧ b ≠ 0)) := by
  interval_cases a <;> interval_cases a' <;>
    rcases hb with hb | hb | hb <;> rcases hb' with hb' | hb' | hb' <;>
    subst hb <;> subst hb' <;> decide

/-- The two region codes share a side: both points are beyond the same
edge of the rectangle (with the `elif` structure of `_code`). -/
abbrev shared2 (l t r b x0 y0 x1 y1 : ℤ) : Prop :=
  (x0 < l ∧ x1 < l) ∨ (¬ x0 < l ∧ r < x0 ∧ ¬ x1 < l ∧ r < x1) ∨
    (y0 < t ∧ y1 < t) ∨ (¬ y0 < t ∧ b < y0 ∧ ¬ y1 < t ∧ b < y1)

/-- `1` when the coordinate lies outside the closed range. -/
def oflag (lo hi v : ℤ) : ℕ := if v < lo ∨ hi < v then 1 else 0

/-- Termination measure for the Cohen–Sutherland loop: one unit per
out-of-range coordinate, plus two units while the two codes share no
side.  Every clipping iteration strictly decreases it. -/
def csPhi (l t r b x0 y0 x1 y1 : ℤ) : ℕ :=
  oflag l r x0 + oflag t b y0 + oflag l r x1 + oflag t b y1 +
    (if shared2 l t r b x0 y0 x1 y1 then 0 else 2)

theorem csPhi_le_six (l t r b x0 y0 x1 y1 : ℤ) : csPhi l t r b x0 y0 x1 y1 ≤ 6 := by
  unfold csPhi oflag
  split_ifs <;> omega

theorem codes_lor_eq_zero_iff (l t w h x0 y0 x1 y1 : ℤ) :
    code x0 y0 (l, t, w, h) ||| code x1 y1 (l, t, w, h) = 0 ↔
      (code x0 y0 (l, t, w, h) = 0 ∧ code x1 y1 (l, t, w, h) = 0) := by
  rw [code_eq_add, code_eq_add]
  exact add_lor_eq_zero (xpart_le _ _ _) (ypart_cases _ _ _) (xpart_le _ _ _) (ypart_cases _ _ _)

theorem code_eq_zero_iff (l t w h x y : ℤ) :
    code x y (l, t, w, h) = 0 ↔ ((¬ x < l ∧ ¬ l + w < x) ∧ (¬ y < t ∧ ¬ t + h < y)) := by
  rw [code_eq_add]
  rw [Nat.add_eq_zero]
  rw [xpart_eq_zero_iff, ypart_eq_zero_iff]

theorem codes_land_ne_zero_iff (l t w h x0 y0 x1 y1 : ℤ) :
    code x0 y0 (l, t, w, h) &&& code x1 y1 (l, t, w, h) ≠ 0 ↔
      shared2 l t (l + w) (t + h) x0 y0 x1 y1 := by
  rw [code_eq_add, code_eq_add,
    add_land_ne_zero (xpart_le _ _ _) (ypart_cases _ _ _) (xpart_le _ _ _) (ypart_cases _ _ _)]
  unfold xpart ypart
  split_ifs <;> simp [shared2, *]

theorem code_and_TOP_iff (l t w h x y : ℤ) :
    code x y (l, t, w, h) &&& TOP ≠ 0 ↔ y < t := by
  rw [code_eq_add, show TOP = 8 from rfl,
    add_and_eight (xpart_le _ _ _) (ypart_cases _ _ _), ypart_eq_eight_iff]

theorem code_and_BOTTOM_iff (l t w h x y : ℤ) :
    code x y (l, t, w, h) &&& BOTTOM ≠ 0 ↔ (¬ y < t ∧ t + h < y) := by
  rw [code_eq_add, show BOTTOM = 4 from rfl,
    add_and_four (xpart_le _ _ _) (ypart_cases _ _ _), ypart_eq_four_iff]

theorem code_and_RIGHT_iff (l t w h x y : ℤ) :
    code x y (l, t, w, h) &&& RIGHT ≠ 0 ↔ (¬ x < l ∧ l + w < x) := by
  rw [code_eq_add, show RIGHT = 2 from rfl,
    add_and_two (xpart_le _ _ _) (ypart_cases _ _ _), xpart_eq_two_iff]

/-- When the out-code is nonzero but none of the TOP, BOTTOM and RIGHT
bits is set, the LEFT bit must be: the point is left of the rectangle and
vertically within it. -/
theorem code_left_of (l t w h x y : ℤ) (hne : code x y (l, t, w, h) ≠ 0)
    (h8 : ¬ code x y (l, t, w, h) &&& TOP ≠ 0)
    (h4 : ¬ code x y (l, t, w, h) &&& BOTTOM ≠ 0)
    (h2 : ¬ code x y (l, t, w, h) &&& RIGHT ≠ 0) :
    x < l ∧ ¬ y < t ∧ ¬ t + h < y := by
  rw [code_and_TOP_iff] at h8
  rw [code_and_BOTTOM_iff] at h4
  rw [code_and_RIGHT_iff] at h2
  rw [Ne, code_eq_zero_iff] at hne
  have hyt : ¬ y < t := h8
  have hyb : ¬ t + h < y := fun hby => h4 ⟨hyt, hby⟩
  refine ⟨?_, hyt, hyb⟩
  by_contra hxl
  exact hne ⟨⟨hxl, fun hrx => h2 ⟨hxl, hrx⟩⟩, hyt, hyb⟩

/-! Rational interval facts used to confine the rounded intersection
point to the rectangle spanned by the two endpoints. -/

theorem div_mem_unit_pos {e ya yb : ℚ} (h1 : ya ≤ e) (h2 : e ≤ yb) (hlt : ya < yb) :
    0 ≤ (e - ya) / (yb - ya) ∧ (e - ya) / (yb - ya) ≤ 1 := by
  have hden : 0 < yb - ya := by linarith
  constructor
  · exact div_nonneg (by linarith) hden.le
  · rw [div_le_one hden]
    linarith

theorem div_mem_unit_neg {e ya yb : ℚ} (h1 : yb ≤ e) (h2 : e ≤ ya) (hlt : yb < ya) :
    0 ≤ (e - ya) / (yb - ya) ∧ (e - ya) / (yb - ya) ≤ 1 := by
  have heq : (e - ya) / (yb - ya) = (ya - e) / (ya - yb) := by
    rw [show e - ya = -(ya - e) from by ring, show yb - ya = -(ya - yb) from by ring,
      neg_div_neg_eq]
  rw [heq]
  have hden : 0 < ya - yb := by linarith
  constructor
  · exact div_nonneg (by linarith) hden.le
  · rw [div_le_one hden]
    linarith

theorem hull_round (xa xb : ℤ) (τ : ℚ) (h0 : 0 ≤ τ) (h1 : τ ≤ 1) :
    min xa xb ≤ roundEven ((xa : ℚ) + ((xb : ℚ) - xa) * τ) ∧
      roundEven ((xa : ℚ) + ((xb : ℚ) - xa) * τ) ≤ max xa xb := by
  have hlo : ((min xa xb : ℤ) : ℚ) ≤ (xa : ℚ) + ((xb : ℚ) - xa) * τ := by
    rcases le_total xa xb with h | h
    · rw [min_eq_left h]
      have : (xa : ℚ) ≤ xb := by exact_mod_cast h
      nlinarith
    · rw [min_eq_right h]
      have : (xb : ℚ) ≤ xa := by exact_mod_cast h
      nlinarith
  have hhi : (xa : ℚ) + ((xb : ℚ) - xa) * τ ≤ ((max xa xb : ℤ) : ℚ) := by
    rcases le_total xa xb with h | h
    · rw [max_eq_right h]
      have : (xa : ℚ) ≤ xb := by exact_mod_cast h
      nlinarith
    · rw [max_eq_left h]
      have : (xb : ℚ) ≤ xa := by exact_mod_cast h
      nlinarith
  exact ⟨le_roundEven hlo, roundEven_le hhi⟩

/-! The measure decreases whatever boundary is clipped against.  One lemma
per boundary, stated with the clipped point first. -/

theorem phi_dec_top (l t r b x0 y0 x1 y1 x0' : ℤ) (htb : t ≤ b)
    (hy0 : y0 < t) (hy1 : ¬ y1 < t)
    (hlo : min x0 x1 ≤ x0') (hhi : x0' ≤ max x0 x1)
    (hns : ¬ shared2 l t r b x0 y0 x1 y1) :
    csPhi l t r b x0' t x1 y1 < csPhi l t r b x0 y0 x1 y1 := by
  unfold csPhi oflag
  split_ifs <;> omega

theorem phi_dec_bottom (l t r b x0 y0 x1 y1 x0' : ℤ) (htb : t ≤ b)
    (hy0 : b < y0) (hy1 : ¬ b < y1)
    (hlo : min x0 x1 ≤ x0') (hhi : x0' ≤ max x0 x1)
    (hns : ¬ shared2 l t r b x0 y0 x1 y1) :
    csPhi l t r b x0' b x1 y1 < csPhi l t r b x0 y0 x1 y1 := by
  unfold csPhi oflag
  split_ifs <;> omega

theorem phi_dec_right (l t r b x0 y0 x1 y1 y0' : ℤ) (hlr : l ≤ r)
    (hx0 : r < x0) (hx1 : ¬ r < x1) (hy0t : ¬ y0 < t) (hy0b : ¬ b < y0)
    (hlo : min y0 y1 ≤ y0') (hhi : y0' ≤ max y0 y1)
    (hns : ¬ shared2 l t r b x0 y0 x1 y1) :
    csPhi l t r b r y0' x1 y1 < csPhi l t r b x0 y0 x1 y1 := by
  unfold csPhi oflag
  split_ifs <;> omega

theorem phi_dec_left (l t r b x0 y0 x1 y1 y0' : ℤ) (hlr : l ≤ r)
    (hx0 : x0 < l) (hx1 : ¬ x1 < l) (hy0t : ¬ y0 < t) (hy0b : ¬ b < y0)
    (hlo : min y0 y1 ≤ y0') (hhi : y0' ≤ max y0 y1)
    (hns : ¬ shared2 l t r b x0 y0 x1 y1) :
    csPhi l t r b l y0' x1 y1 < csPhi l t r b x0 y0 x1 y1 := by
  unfold csPhi oflag
  split_ifs <;> omega

theorem csPhi_swap (l t r b x0 y0 x1 y1 : ℤ) :
    csPhi l t r b x0 y0 x1 y1 = csPhi l t r b x1 y1 x0 y0 := by
  unfold csPhi oflag
  split_ifs <;> omega

/-- Every iteration of the Cohen–Sutherland loop that does not terminate
strictly decreases the measure `csPhi` (for a rectangle with non-negative
width and height). -/
theorem csStep_decrease (l t w h : ℤ) (hw : 0 ≤ w) (hh : 0 ≤ h) (st st' : CSState)
    (hstep : csStep (l, t, w, h) st = Sum.inr st') :
    csPhi l t (l + w) (t + h) st'.x0 st'.y0 st'.x1 st'.y1 <
      csPhi l t (l + w) (t + h) st.x0 st.y0 st.x1 st.y1 := by
  obtain ⟨x0, y0, x1, y1⟩ := st
  have hlr : l ≤ l + w := by omega
  have htb : t ≤ t + h := by omega
  simp only [csStep, csIntersect, edges] at hstep
  by_cases hOr : code x0 y0 (l, t, w, h) ||| code x1 y1 (l, t, w, h) = 0
  · rw [if_pos hOr] at hstep
    exact absurd hstep (by simp)
  rw [if_neg hOr] at hstep
  by_cases hAnd : code x0 y0 (l, t, w, h) &&& code x1 y1 (l, t, w, h) ≠ 0
  · rw [if_pos hAnd] at hstep
    exact absurd hstep (by simp)
  rw [if_neg hAnd] at hstep
  have hns : ¬ shared2 l t (l + w) (t + h) x0 y0 x1 y1 := fun hsh =>
    hAnd ((codes_land_ne_zero_iff l t w h x0 y0 x1 y1).2 hsh)
  by_cases hC0 : code x0 y0 (l, t, w, h) ≠ 0
  · -- the first endpoint is clipped
    rw [if_pos hC0, if_pos rfl] at hstep
    by_cases h8 : code x0 y0 (l, t, w, h) &&& TOP ≠ 0
    · -- TOP
      rw [if_pos h8] at hstep
      have hy0t : y0 < t := (code_and_TOP_iff l t w h x0 y0).1 h8
      have hy1t : ¬ y1 < t := fun hy1 => hns (Or.inr (Or.inr (Or.inl ⟨hy0t, hy1⟩)))
      rw [if_pos (show y1 ≠ y0 by omega)] at hstep
      injection hstep with hst
      subst hst
      simp only []
      have hτ := @div_mem_unit_pos ((t : ℚ)) ((y0 : ℚ)) ((y1 : ℚ))
        (by exact_mod_cast hy0t.le) (by exact_mod_cast not_lt.1 hy1t)
        (by exact_mod_cast lt_of_lt_of_le hy0t (not_lt.1 hy1t))
      rw [mul_div_assoc]
      have hhull := hull_round x0 x1 _ hτ.1 hτ.2
      rw [roundEven_intCast]
      exact phi_dec_top l t (l + w) (t + h) x0 y0 x1 y1 _ htb hy0t hy1t hhull.1 hhull.2 hns
    rw [if_neg h8] at hstep
    by_cases h4 : code x0 y0 (l, t, w, h) &&& BOTTOM ≠ 0
    · -- BOTTOM
      rw [if_pos h4] at hstep
      have hb4 := (code_and_BOTTOM_iff l t w h x0 y0).1 h4
      have hy0b : t + h < y0 := hb4.2
      have hy1b : ¬ t + h < y1 := by
        intro hby1
        by_cases hy1t : y1 < t
        · omega
        · exact hns (Or.inr (Or.inr (Or.inr ⟨hb4.1, hb4.2, hy1t, hby1⟩)))
      rw [if_pos (show y1 ≠ y0 by omega)] at hstep
      injection hstep with hst
      subst hst
      simp only []
      have hτ := @div_mem_unit_neg (((t + h : ℤ) : ℚ)) ((y0 : ℚ)) ((y1 : ℚ))
        (by exact_mod_cast not_lt.1 hy1b) (by exact_mod_cast hy0b.le)
        (by exact_mod_cast lt_of_le_of_lt (not_lt.1 hy1b) hy0b)
      rw [mul_div_assoc]
      have hhull := hull_round x0 x1 _ hτ.1 hτ.2
      rw [roundEven_intCast]
      exact phi_dec_bottom l t (l + w) (t + h) x0 y0 x1 y1 _ htb hy0b hy1b hhull.1 hhull.2 hns
    rw [if_neg h4] at hstep
    by_cases h2 : code x0 y0 (l, t, w, h) &&& RIGHT ≠ 0
    · -- RIGHT
      rw [if_pos h2] at hstep
      have hb2 := (code_and_RIGHT_iff l t w h x0 y0).1 h2
      have hx0r : l + w < x0 := hb2.2
      have hx1r : ¬ l + w < x1 := by
        intro hrx1
        by_cases hx1l : x1 < l
        · omega
        · exact hns (Or.inr (Or.inl ⟨hb2.1, hb2.2, hx1l, hrx1⟩))
      have hy0t : ¬ y0 < t := fun hc => h8 ((code_and_TOP_iff l t w h x0 y0).2 hc)
      have hy0b : ¬ t + h < y0 := fun hc => h4 ((code_and_BOTTOM_iff l t w h x0 y0).2 ⟨hy0t, hc⟩)
      rw [if_pos (show x1 ≠ x0 by omega)] at hstep
      injection hstep with hst
      subst hst
      simp only []
      have hτ := @div_mem_unit_neg (((l + w : ℤ) : ℚ)) ((x0 : ℚ)) ((x1 : ℚ))
        (by exact_mod_cast not_lt.1 hx1r) (by exact_mod_cast hx0r.le)
        (by exact_mod_cast lt_of_le_of_lt (not_lt.1 hx1r) hx0r)
      rw [mul_div_assoc]
      have hhull := hull_round y0 y1 _ hτ.1 hτ.2
      rw [roundEven_intCast]
      exact phi_dec_right l t (l + w) (t + h) x0 y0 x1 y1 _ hlr hx0r hx1r hy0t hy0b
        hhull.1 hhull.2 hns
    rw [if_neg h2] at hstep
    -- LEFT
    have hb1 := code_left_of l t w h x0 y0 hC0 h8 h4 h2
    have hx0l : x0 < l := hb1.1
    have hx1l : ¬ x1 < l := fun hc => hns (Or.inl ⟨hx0l, hc⟩)
    rw [if_pos (show x1 ≠ x0 by omega)] at hstep
    injection hstep with hst
    subst hst
    simp only []
    have hτ := @div_mem_unit_pos ((l : ℚ)) ((x0 : ℚ)) ((x1 : ℚ))
      (by exact_mod_cast hx0l.le) (by exact_mod_cast not_lt.1 hx1l)
      (by exact_mod_cast lt_of_lt_of_le hx0l (not_lt.1 hx1l))
    rw [mul_div_assoc]
    have hhull := hull_round y0 y1 _ hτ.1 hτ.2
    rw [roundEven_intCast]
    exact phi_dec_left l t (l + w) (t + h) x0 y0 x1 y1 _ hlr hx0l hx1l hb1.2.1 hb1.2.2
      hhull.1 hhull.2 hns
  · -- the second endpoint is clipped
    rw [if_neg hC0] at hstep
    have hc0z : code x0 y0 (l, t, w, h) = 0 := not_ne_iff.1 hC0
    have hc1nz : code x1 y1 (l, t, w, h) ≠ 0 := fun hz =>
      hOr ((codes_lor_eq_zero_iff l t w h x0 y0 x1 y1).2 ⟨hc0z, hz⟩)
    have hin := (code_eq_zero_iff l t w h x0 y0).1 hc0z
    have hns' : ¬ shared2 l t (l + w) (t + h) x1 y1 x0 y0 := by
      intro hsh
      apply hns
      rcases hsh with h | h | h | h
      · exact Or.inl ⟨h.2, h.1⟩
      · exact Or.inr (Or.inl ⟨h.2.2.1, h.2.2.2, h.1, h.2.1⟩)
      · exact Or.inr (Or.inr (Or.inl ⟨h.2, h.1⟩))
      · exact Or.inr (Or.inr (Or.inr ⟨h.2.2.1, h.2.2.2, h.1, h.2.1⟩))
    rw [if_neg (show ¬ code x1 y1 (l, t, w, h) = code x0 y0 (l, t, w, h) from
      fun hcc => hc1nz (hcc.trans hc0z))] at hstep
    by_cases h8 : code x1 y1 (l, t, w, h) &&& TOP ≠ 0
    · -- TOP on the second endpoint
      rw [if_pos h8] at hstep
      have hy1t : y1 < t := (code_and_TOP_iff l t w h x1 y1).1 h8
      have hy0t : ¬ y0 < t := hin.2.1
      rw [if_pos (show y1 ≠ y0 by omega)] at hstep
      injection hstep with hst
      subst hst
      simp only []
      have hτ := @div_mem_unit_neg ((t : ℚ)) ((y0 : ℚ)) ((y1 : ℚ))
        (by exact_mod_cast hy1t.le) (by exact_mod_cast not_lt.1 hy0t)
        (by exact_mod_cast lt_of_lt_of_le hy1t (not_lt.1 hy0t))
      rw [mul_div_assoc]
      have hhull := hull_round x0 x1 _ hτ.1 hτ.2
      rw [roundEven_intCast]
      rw [csPhi_swap l t (l + w) (t + h) x0 y0, csPhi_swap l t (l + w) (t + h) x0 y0]
      exact phi_dec_top l t (l + w) (t + h) x1 y1 x0 y0 _ htb hy1t hy0t
        (by omega) (by omega) hns'
    rw [if_neg h8] at hstep
    by_cases h4 : code x1 y1 (l, t, w, h) &&& BOTTOM ≠ 0
    · -- BOTTOM on the second endpoint
      rw [if_pos h4] at hstep
      have hb4 := (code_and_BOTTOM_iff l t w h x1 y1).1 h4
      have hy1b : t + h < y1 := hb4.2
      have hy0b : ¬ t + h < y0 := hin.2.2
      rw [if_pos (show y1 ≠ y0 by omega)] at hstep
      injection hstep with hst
      subst hst
      simp only []
      have hτ := @div_mem_unit_pos (((t + h : ℤ) : ℚ)) ((y0 : ℚ)) ((y1 : ℚ))
        (by exact_mod_cast not_lt.1 hy0b) (by exact_mod_cast hy1b.le)
        (by exact_mod_cast lt_of_le_of_lt (not_lt.1 hy0b) hy1b)
      rw [mul_div_assoc]
      have hhull := hull_round x0 x1 _ hτ.1 hτ.2
      rw [roundEven_intCast]
      rw [csPhi_swap l t (l + w) (t + h) x0 y0, csPhi_swap l t (l + w) (t + h) x0 y0]
      exact phi_dec_bottom l t (l + w) (t + h) x1 y1 x0 y0 _ htb hy1b hy0b
        (by omega) (by omega) hns'
    rw [if_neg h4] at hstep
    by_cases h2 : code x1 y1 (l, t, w, h) &&& RIGHT ≠ 0
    · -- RIGHT on the second endpoint
      rw [if_pos h2] at hstep
      have hb2 := (code_and_RIGHT_iff l t w h x1 y1).1 h2
      have hx1r : l + w < x1 := hb2.2
      have hx0r : ¬ l + w < x0 := hin.1.2
      have hy1t : ¬ y1 < t := fun hc => h8 ((code_and_TOP_iff l t w h x1 y1).2 hc)
      have hy1b : ¬ t + h < y1 := fun hc =>
        h4 ((code_and_BOTTOM_iff l t w h x1 y1).2 ⟨hy1t, hc⟩)
      rw [if_pos (show x1 ≠ x0 by omega)] at hstep
      injection hstep with hst
      subst hst
      simp only []
      have hτ := @div_mem_unit_pos (((l + w : ℤ) : ℚ)) ((x0 : ℚ)) ((x1 : ℚ))
        (by exact_mod_cast not_lt.1 hx0r) (by exact_mod_cast hx1r.le)
        (by exact_mod_cast lt_of_le_of_lt (not_lt.1 hx0r) hx1r)
      rw [mul_div_assoc]
      have hhull := hull_round y0 y1 _ hτ.1 hτ.2
      rw [roundEven_intCast]
      rw [csPhi_swap l t (l + w) (t + h) x0 y0, csPhi_swap l t (l + w) (t + h) x0 y0]
      exact phi_dec_right l t (l + w) (t + h) x1 y1 x0 y0 _ hlr hx1r hx0r hy1t hy1b
        (by omega) (by omega) hns'
    rw [if_neg h2] at hstep
    -- LEFT on the second endpoint
    have hb1 := code_left_of l t w h x1 y1 hc1nz h8 h4 h2
    have hx1l : x1 < l := hb1.1
    have hx0l : ¬ x0 < l := hin.1.1
    rw [if_pos (show x1 ≠ x0 by omega)] at hstep
    injection hstep with hst
    subst hst
    simp only []
    have hτ := @div_mem_unit_neg ((l : ℚ)) ((x0 : ℚ)) ((x1 : ℚ))
      (by exact_mod_cast hx1l.le) (by exact_mod_cast not_lt.1 hx0l)
      (by exact_mod_cast lt_of_lt_of_le hx1l (not_lt.1 hx0l))
    rw [mul_div_assoc]
    have hhull := hull_round y0 y1 _ hτ.1 hτ.2
    rw [roundEven_intCast]
    rw [csPhi_swap l t (l + w) (t + h) x0 y0, csPhi_swap l t (l + w) (t + h) x0 y0]
    exact phi_dec_left l t (l + w) (t + h) x1 y1 x0 y0 _ hlr hx1l hx0l hb1.2.1 hb1.2.2
      (by omega) (by omega) hns'

/-- With fuel exceeding the measure, the Cohen–Sutherland loop reaches a
definitive answer. -/
theorem csLoop_isSome (l t w h : ℤ) (hw : 0 ≤ w) (hh : 0 ≤ h) :
    ∀ (fuel : ℕ) (st : CSState),
      csPhi l t (l + w) (t + h) st.x0 st.y0 st.x1 st.y1 < fuel →
      (csLoop fuel (l, t, w, h) st).isSome := by
  intro fuel
  induction fuel with
  | zero =>
    intro st hst
    omega
  | succ n ih =>
    intro st hst
    rcases hs : csStep (l, t, w, h) st with res | st2
    · simp [csLoop, hs]
    · simp only [csLoop, hs]
      apply ih
      have := csStep_decrease l t w h hw hh st st2 hs
      omega

end Clipping

/-! ## Scene clipping operation (`src/tp1/tools/clip_actions.py`) -/

namespace Tools

/-- The clipper dispatch of `clip_lines`: Python compares the `algo`
string against `"CS"` and falls back to Liang–Barsky otherwise. -/
def runClipper (algo : String) (p0 p1 : Point) (rect : Rect4) : Option (Point × Point) :=
  if algo = "CS" then Clipping.cohen_sutherland_clip p0 p1 rect
  else Clipping.liang_barsky_clip p0 p1 rect

/-- The `for i, ln in enumerate(scene.lines)` loop of `clip_lines`,
threading the running index.  Returns the rebuilt `keep` list and the
`(kept, removed)` counters.  A line is passed through unchanged when some
lines are selected and its index is not among them; otherwise it is
clipped: a `none` result drops it (counted in `removed`), a result replaces
it with the new endpoints and the same `algo` tag (counted in `kept`). -/
def clipLinesLoop (algo : String) (rect : Rect4) (sel : Finset ℕ) :
    ℕ → List Line → List Line × ℕ × ℕ
  | _, [] => ([], 0, 0)
  | i, ln :: rest =>
    let res := clipLinesLoop algo rect sel (i + 1) rest
    if sel.Nonempty ∧ i ∉ sel then (ln :: res.1, res.2.1, res.2.2)
    else
      match runClipper algo ln.p0 ln.p1 rect with
      | none => (res.1, res.2.1, res.2.2 + 1)
      | some (q0, q1) =>
        (⟨⟨q0.x, q0.y⟩, ⟨q1.x, q1.y⟩, ln.algo⟩ :: res.1, res.2.1 + 1, res.2.2)

/-- `clip_lines` (tools/clip_actions.py): clip the scene's lines against
the clip window using the chosen algorithm.  With no window set it reports
`(0, 0)` and changes nothing.  Otherwise the scene's line list is replaced
by the rebuilt list, the line selection is cleared, and `(kept, removed)`
is returned.  The status message and canvas redraw are UI effects outside
the geometric core.  Result: (scene, line selection, circle selection,
kept, removed). -/
def clip_lines (algo : String) (scene : Scene) (window : Option Rect4)
    (selectedLines selectedCircles : Finset ℕ) :
    Scene × Finset ℕ × Finset ℕ × ℕ × ℕ :=
  match window with
  | none => (scene, selectedLines, selectedCircles, 0, 0)
  | some rect =>
    let res := clipLinesLoop algo rect selectedLines 0 scene.lines
    ({ lines := res.1, circles := scene.circles }, ∅, selectedCircles, res.2.1, res.2.2)

/-! ### Spec-shaped description of `clip_lines` (for the C1 claim) -/

/-- Spec wording: a line index is a candidate when the selection is empty
or absent, or when it is among the selected indices. -/
def isCandidate (sel : Finset ℕ) (i : ℕ) : Bool :=
  decide (sel = ∅) || decide (i ∈ sel)

/-- Spec wording: the rebuilt line list — non-candidates pass through
unchanged in their original relative order; a candidate is dropped when
its clip returns `none` and otherwise replaced by a line with the new
endpoints and the same `algo` tag. -/
def clipLinesSpecList (algo : String) (rect : Rect4) (sel : Finset ℕ)
    (lines : List Line) : List Line :=
  lines.enum.filterMap fun p =>
    if isCandidate sel p.1 then
      (runClipper algo p.2.p0 p.2.p1 rect).map fun q =>
        ⟨⟨q.1.x, q.1.y⟩, ⟨q.2.x, q.2.y⟩, p.2.algo⟩
    else some p.2

/-- Spec wording: `kept` counts the candidates whose clip succeeds. -/
def keptSpec (algo : String) (rect : Rect4) (sel : Finset ℕ) (lines : List Line) : ℕ :=
  lines.enum.countP fun p =>
    isCandidate sel p.1 && (runClipper algo p.2.p0 p.2.p1 rect).isSome

/-- Spec wording: `removed` counts the candidates whose clip returns
`none`. -/
def removedSpec (algo : String) (rect : Rect4) (sel : Finset ℕ) (lines : List Line) : ℕ :=
  lines.enum.countP fun p =>
    isCandidate sel p.1 && (runClipper algo p.2.p0 p.2.p1 rect).isNone

/-- The number of non-candidate lines. -/
def nonCandidateCount (sel : Finset ℕ) (lines : List Line) : ℕ :=
  lines.enum.countP fun p => !isCandidate sel p.1

/-! ### Correspondence between the loop and the spec-shaped description -/

theorem isCandidate_iff_not_passthrough (sel : Finset ℕ) (i : ℕ) :
    isCandidate sel i = true ↔ ¬(sel.Nonempty ∧ i ∉ sel) := by
  simp [isCandidate, Finset.nonempty_iff_ne_empty]
  tauto

theorem clipLinesLoop_eq_spec (algo : String) (rect : Rect4) (sel : Finset ℕ) :
    ∀ (l : List Line) (n : ℕ),
      clipLinesLoop algo rect sel n l =
        ((l.enumFrom n).filterMap fun p =>
            if isCandidate sel p.1 then
              (runClipper algo p.2.p0 p.2.p1 rect).map fun q =>
                ⟨⟨q.1.x, q.1.y⟩, ⟨q.2.x, q.2.y⟩, p.2.algo⟩
            else some p.2,
          (l.enumFrom n).countP fun p =>
            isCandidate sel p.1 && (runClipper algo p.2.p0 p.2.p1 rect).isSome,
          (l.enumFrom n).countP fun p =>
            isCandidate sel p.1 && (runClipper algo p.2.p0 p.2.p1 rect).isNone) := by
  intro l
  induction l with
  | nil => intro n; simp [clipLinesLoop]
  | cons ln rest ih =>
    intro n
    have hcons : (ln :: rest).enumFrom n = (n, ln) :: rest.enumFrom (n + 1) := rfl
    rw [hcons]
    by_cases hc : sel.Nonempty ∧ n ∉ sel
    · have hcand : isCandidate sel n = false := by
        rw [Bool.eq_false_iff]
        intro h
        exact (isCandidate_iff_not_passthrough sel n).1 h hc
      simp [clipLinesLoop, if_pos hc, ih (n + 1), List.countP_cons, hcand]
    · have hcand : isCandidate sel n = true := (isCandidate_iff_not_passthrough sel n).2 hc
      rcases hclip : runClipper algo ln.p0 ln.p1 rect with _ | ⟨q0, q1⟩ <;>
        simp [clipLinesLoop, if_neg hc, ih (n + 1), List.countP_cons, hcand, hclip]

theorem clipLinesLoop_length (algo : String) (rect : Rect4) (sel : Finset ℕ) :
    ∀ (l : List Line) (n : ℕ),
      (clipLinesLoop algo rect sel n l).1.length =
        (clipLinesLoop algo rect sel n l).2.1 +
          (l.enumFrom n).countP fun p => !isCandidate sel p.1 := by
  intro l
  induction l with
  | nil => intro n; simp [clipLinesLoop]
  | cons ln rest ih =>
    intro n
    have hcons : (ln :: rest).enumFrom n = (n, ln) :: rest.enumFrom (n + 1) := rfl
    rw [hcons]
    by_cases hc : sel.Nonempty ∧ n ∉ sel
    · have hcand : isCandidate sel n = false := by
        rw [Bool.eq_false_iff]
        intro h
        exact (isCandidate_iff_not_passthrough sel n).1 h hc
      simp [clipLinesLoop, if_pos hc, List.countP_cons, hcand, ih (n + 1)]
      omega
    · have hcand : isCandidate sel n = true := (isCandidate_iff_not_passthrough sel n).2 hc
      rcases hclip : runClipper algo ln.p0 ln.p1 rect with _ | ⟨q0, q1⟩ <;>
        · simp [clipLinesLoop, if_neg hc, List.countP_cons, hcand, hclip, ih (n + 1)]
          try omega

end Tools

/-! ## Rasterizers (`src/tp1/algorithms/lines.py`, `circles.py`)

The Python rasterizers draw via `put_pixel`; the embedding returns the
emitted pixel sequence as a list instead. -/

namespace Algorithms

/-- The emission loop of `draw_line_dda`: `n` remaining iterations, current
accumulated position `(x, y)`, fixed increments.  Each iteration emits
`(round x, round y)` then increments. -/
def ddaLoop (n : ℕ) (x y xInc yInc : ℚ) : List Point :=
  match n with
  | 0 => []
  | k + 1 => ⟨roundEven x, roundEven y⟩ :: ddaLoop k (x + xInc) (y + yInc) xInc yInc

/-- `draw_line_dda`: `steps = max(|dx|, |dy|)`; a single pixel at `p0` when
`steps == 0`, otherwise `steps + 1` pixels accumulated by floating-point
increments `(dx/steps, dy/steps)`. -/
def draw_line_dda (p0 p1 : Point) : List Point :=
  let dx := p1.x - p0.x
  let dy := p1.y - p0.y
  let steps := max dx.natAbs dy.natAbs
  if steps = 0 then [⟨p0.x, p0.y⟩]
  else ddaLoop (steps + 1) (p0.x : ℚ) (p0.y : ℚ) ((dx : ℚ) / steps) ((dy : ℚ) / steps)

/-- The `while True` loop of `draw_line_bresenham` with explicit fuel:
emit the current pixel, stop when it equals `p1`, otherwise advance `x`
when `2*err > -dy` and `y` when `2*err < dx`. -/
def bresLoop (fuel : ℕ) (x0 y0 x1 y1 dx dy sx sy err : ℤ) : List Point :=
  match fuel with
  | 0 => []
  | n + 1 =>
    if x0 = x1 ∧ y0 = y1 then [⟨x0, y0⟩]
    else
      let e2 := 2 * err
      let x0' := if e2 > -dy then x0 + sx else x0
      let err1 := if e2 > -dy then err - dy else err
      let y0' := if e2 < dx then y0 + sy else y0
      let err2 := if e2 < dx then err1 + dx else err1
      ⟨x0, y0⟩ :: bresLoop n x0' y0' x1 y1 dx dy sx sy err2

/-- `draw_line_bresenham`: standard integer Bresenham with
`sx, sy ∈ {1, -1}` and error term `err = |dx| - |dy|`.  The fuel
`|dx| + |dy| + 1` is enough for the loop to reach `p1` (proved below). -/
def draw_line_bresenham (p0 p1 : Point) : List Point :=
  let dx := |p1.x - p0.x|
  let dy := |p1.y - p0.y|
  let sx : ℤ := if p0.x < p1.x then 1 else -1
  let sy : ℤ := if p0.y < p1.y then 1 else -1
  bresLoop (dx + dy + 1).toNat p0.x p0.y p1.x p1.y dx dy sx sy (dx - dy)

/-- The `while x <= y` loop of `draw_circle_bresenham` with explicit fuel:
emit the 8 octant-symmetric pixels, then advance the midpoint decision
variable. -/
def circleLoop (fuel : ℕ) (cx cy x y d : ℤ) : List Point :=
  match fuel with
  | 0 => []
  | n + 1 =>
    if x ≤ y then
      let x' := x + 1
      [⟨cx + x, cy + y⟩, ⟨cx + y, cy + x⟩, ⟨cx - x, cy + y⟩, ⟨cx - y, cy + x⟩,
        ⟨cx + x, cy - y⟩, ⟨cx + y, cy - x⟩, ⟨cx - x, cy - y⟩, ⟨cx - y, cy - x⟩] ++
        (if d < 0 then circleLoop n cx cy x' y (d + 2 * x' + 1)
          else circleLoop n cx cy x' (y - 1) (d + 2 * (x' - (y - 1)) + 1))
    else []

/-- `draw_circle_bresenham` (midpoint): a single pixel at the center for
`r ≤ 0`, else the octant loop starting from `x = 0, y = r, d = 1 - r`.
The fuel `r + 2` covers every iteration: `x` increases by `1` each time and
the loop stops once `x > y`, with `y ≤ r`. -/
def draw_circle_bresenham (center : Point) (r : ℤ) : List Point :=
  if r ≤ 0 then [⟨center.x, center.y⟩]
  else circleLoop (r + 2).toNat center.x center.y 0 r (1 - r)

/-! ### Supporting lemmas for the line rasterizers -/

theorem getLast?_cons_of_ne_nil {α : Type} (a : α) {l : List α} (h : l ≠ []) :
    (a :: l).getLast? = l.getLast? := by
  cases l with
  | nil => exact absurd rfl h
  | cons b t => rw [List.getLast?_cons_cons]

theorem ddaLoop_length (xi yi : ℚ) : ∀ (n : ℕ) (x y : ℚ),
    (ddaLoop n x y xi yi).length = n := by
  intro n
  induction n with
  | zero => intro x y; rfl
  | succ k ih => intro x y; simp [ddaLoop, ih]

theorem ddaLoop_ne_nil (n : ℕ) (x y xi yi : ℚ) : ddaLoop (n + 1) x y xi yi ≠ [] := by
  intro h
  have := ddaLoop_length xi yi (n + 1) x y
  rw [h] at this
  simp at this

theorem ddaLoop_head (n : ℕ) (x y xi yi : ℚ) :
    (ddaLoop (n + 1) x y xi yi).head? = some ⟨roundEven x, roundEven y⟩ := rfl

theorem ddaLoop_getLast (xi yi : ℚ) : ∀ (n : ℕ) (x y : ℚ),
    (ddaLoop (n + 1) x y xi yi).getLast? =
      some ⟨roundEven (x + n * xi), roundEven (y + n * yi)⟩ := by
  intro n
  induction n with
  | zero => intro x y; simp [ddaLoop]
  | succ k ih =>
    intro x y
    have h1 : ddaLoop (k + 1 + 1) x y xi yi =
        ⟨roundEven x, roundEven y⟩ :: ddaLoop (k + 1) (x + xi) (y + yi) xi yi := rfl
    rw [h1, getLast?_cons_of_ne_nil _ (ddaLoop_ne_nil k _ _ xi yi), ih (x + xi) (y + yi)]
    have ex : x + xi + k * xi = x + (k + 1 : ℕ) * xi := by push_cast; ring
    have ey : y + yi + k * yi = y + (k + 1 : ℕ) * yi := by push_cast; ring
    rw [ex, ey]

theorem bresLoop_ne_nil (n : ℕ) (x0 y0 x1 y1 dx dy sx sy err : ℤ) :
    bresLoop (n + 1) x0 y0 x1 y1 dx dy sx sy err ≠ [] := by
  simp only [bresLoop]
  split_ifs <;> simp

theorem bresLoop_head (n : ℕ) (x0 y0 x1 y1 dx dy sx sy err : ℤ) :
    (bresLoop (n + 1) x0 y0 x1 y1 dx dy sx sy err).head? = some ⟨x0, y0⟩ := by
  simp only [bresLoop]
  split_ifs <;> rfl

/-- Invariant-based termination and final-pixel lemma for the Bresenham
loop.  `sx*(x1-x0)` and `sy*(y1-y0)` are the remaining distances; the
error term always equals `dx - dy + rx*dy - ry*dx` in terms of those
remaining distances, which confines every step to the rectangle spanned by
the endpoints and forces progress, so the loop reaches `(x1, y1)` before
the fuel runs out and emits it last. -/
theorem bresLoop_getLast (x1 y1 dx dy sx sy : ℤ) (hdx : 0 ≤ dx) (hdy : 0 ≤ dy)
    (hsx : sx = 1 ∨ sx = -1) (hsy : sy = 1 ∨ sy = -1) :
    ∀ (fuel : ℕ) (x0 y0 err : ℤ),
      0 ≤ sx * (x1 - x0) → sx * (x1 - x0) ≤ dx →
      0 ≤ sy * (y1 - y0) → sy * (y1 - y0) ≤ dy →
      err = dx - dy + sx * (x1 - x0) * dy - sy * (y1 - y0) * dx →
      sx * (x1 - x0) + sy * (y1 - y0) < (fuel : ℤ) →
      (bresLoop fuel x0 y0 x1 y1 dx dy sx sy err).getLast? = some ⟨x1, y1⟩ := by
  have hsx2 : sx * sx = 1 := by rcases hsx with h | h <;> rw [h] <;> ring
  have hsy2 : sy * sy = 1 := by rcases hsy with h | h <;> rw [h] <;> ring
  intro fuel
  induction fuel with
  | zero =>
    intro x0 y0 err hrx0 _ hry0 _ _ hfuel
    exact absurd hfuel (by push_cast; omega)
  | succ n ih =>
    intro x0 y0 err hrx0 hrx1 hry0 hry1 herr hfuel
    by_cases hend : x0 = x1 ∧ y0 = y1
    · simp only [bresLoop, if_pos hend]
      rw [hend.1, hend.2]
      rfl
    · simp only [bresLoop, if_neg hend]
      -- if a step fires, the remaining distance on that axis is positive
      have hx01 : sx * (x1 - x0) = 0 → x0 = x1 := by
        rcases hsx with h | h <;> rw [h] <;> omega
      have hy01 : sy * (y1 - y0) = 0 → y0 = y1 := by
        rcases hsy with h | h <;> rw [h] <;> omega
      have hxfire : 2 * err > -dy → 1 ≤ sx * (x1 - x0) := by
        intro h2
        by_contra hcon
        push_neg at hcon
        have hrx_eq : sx * (x1 - x0) = 0 := by omega
        have hxeq : x0 = x1 := hx01 hrx_eq
        have hry_ne : sy * (y1 - y0) ≠ 0 := fun h => hend ⟨hxeq, hy01 h⟩
        have hry_pos : 1 ≤ sy * (y1 - y0) := by omega
        nlinarith [mul_nonneg hdx (by omega : (0 : ℤ) ≤ sy * (y1 - y0) - 1)]
      have hyfire : 2 * err < dx → 1 ≤ sy * (y1 - y0) := by
        intro h2
        by_contra hcon
        push_neg at hcon
        have hry_eq : sy * (y1 - y0) = 0 := by omega
        have hyeq : y0 = y1 := hy01 hry_eq
        have hrx_ne : sx * (x1 - x0) ≠ 0 := fun h => hend ⟨hx01 h, hyeq⟩
        have hrx_pos : 1 ≤ sx * (x1 - x0) := by omega
        nlinarith [mul_nonneg hdy (by omega : (0 : ℤ) ≤ sx * (x1 - x0) - 1)]
      have e1 : sx * (x1 - (x0 + sx)) = sx * (x1 - x0) - 1 := by
        rw [show sx * (x1 - (x0 + sx)) = sx * (x1 - x0) - sx * sx from by ring, hsx2]
      have e2 : sy * (y1 - (y0 + sy)) = sy * (y1 - y0) - 1 := by
        rw [show sy * (y1 - (y0 + sy)) = sy * (y1 - y0) - sy * sy from by ring, hsy2]
      by_cases hX : 2 * err > -dy <;> by_cases hY : 2 * err < dx
      · -- both axes advance
        have hrx_pos := hxfire hX
        have hry_pos := hyfire hY
        simp only [if_pos hX, if_pos hY]
        have hn : n ≠ 0 := by omega
        obtain ⟨m, rfl⟩ := Nat.exists_eq_succ_of_ne_zero hn
        rw [getLast?_cons_of_ne_nil _ (bresLoop_ne_nil m _ _ _ _ _ _ _ _ _)]
        exact ih (x0 + sx) (y0 + sy) (err - dy + dx)
          (by rw [e1]; omega) (by rw [e1]; omega) (by rw [e2]; omega) (by rw [e2]; omega)
          (by linear_combination herr + dy * hsx2 - dx * hsy2)
          (by rw [e1, e2]; push_cast; push_cast at hfuel; omega)
      · -- only x advances
        have hrx_pos := hxfire hX
        simp only [if_pos hX, if_neg hY]
        have hn : n ≠ 0 := by omega
        obtain ⟨m, rfl⟩ := Nat.exists_eq_succ_of_ne_zero hn
        rw [getLast?_cons_of_ne_nil _ (bresLoop_ne_nil m _ _ _ _ _ _ _ _ _)]
        exact ih (x0 + sx) y0 (err - dy)
          (by rw [e1]; omega) (by rw [e1]; omega) hry0 hry1
          (by linear_combination herr + dy * hsx2)
          (by rw [e1]; push_cast; push_cast at hfuel; omega)
      · -- only y advances
        have hry_pos := hyfire hY
        simp only [if_neg hX, if_pos hY]
        have hn : n ≠ 0 := by omega
        obtain ⟨m, rfl⟩ := Nat.exists_eq_succ_of_ne_zero hn
        rw [getLast?_cons_of_ne_nil _ (bresLoop_ne_nil m _ _ _ _ _ _ _ _ _)]
        exact ih x0 (y0 + sy) (err + dx)
          hrx0 hrx1 (by rw [e2]; omega) (by rw [e2]; omega)
          (by linear_combination herr - dx * hsy2)
          (by rw [e2]; push_cast; push_cast at hfuel; omega)
      · -- no axis advances: impossible while the endpoint is not reached
        exfalso
        push_neg at hX hY
        have hdx0 : dx = 0 := by omega
        have hdy0 : dy = 0 := by omega
        exact hend ⟨hx01 (by omega), hy01 (by omega)⟩

/-! ### Supporting lemmas for the circle rasterizer

Every pixel block emitted by one iteration of the midpoint loop is a full
8-point octant orbit, so membership in the emitted pixel list is closed
under reflecting across the vertical axis, the horizontal axis, and the
diagonal through the center — whatever the loop state is. -/

theorem circleLoop_negx (cx cy : ℤ) : ∀ (fuel : ℕ) (x y d a b : ℤ),
    (⟨a, b⟩ : Point) ∈ circleLoop fuel cx cy x y d ↔
      (⟨2 * cx - a, b⟩ : Point) ∈ circleLoop fuel cx cy x y d := by
  intro fuel
  induction fuel with
  | zero => intro x y d a b; simp [circleLoop]
  | succ n ih =>
    intro x y d a b
    simp only [circleLoop]
    by_cases hxy : x ≤ y
    · rw [if_pos hxy]
      by_cases hd : d < 0 <;> [rw [if_pos hd]; rw [if_neg hd]] <;>
        · simp only [List.mem_append, List.mem_cons, List.not_mem_nil, or_false,
            Point.mk.injEq]
          refine or_congr ⟨?_, ?_⟩ (ih _ _ _ _ _) <;>
            · rintro (h | h | h | h | h | h | h | h)
              · exact Or.inr (Or.inr (Or.inl ⟨by omega, by omega⟩))
              · exact Or.inr (Or.inr (Or.inr (Or.inl ⟨by omega, by omega⟩)))
              · exact Or.inl ⟨by omega, by omega⟩
              · exact Or.inr (Or.inl ⟨by omega, by omega⟩)
              · exact Or.inr (Or.inr (Or.inr (Or.inr (Or.inr (Or.inr (Or.inl ⟨by omega, by omega⟩))))))
              · exact Or.inr (Or.inr (Or.inr (Or.inr (Or.inr (Or.inr (Or.inr (⟨by omega, by omega⟩)))))))
              · exact Or.inr (Or.inr (Or.inr (Or.inr (Or.inl ⟨by omega, by omega⟩))))
              · exact Or.inr (Or.inr (Or.inr (Or.inr (Or.inr (Or.inl ⟨by omega, by omega⟩)))))
    · rw [if_neg hxy]
      simp

theorem circleLoop_negy (cx cy : ℤ) : ∀ (fuel : ℕ) (x y d a b : ℤ),
    (⟨a, b⟩ : Point) ∈ circleLoop fuel cx cy x y d ↔
      (⟨a, 2 * cy - b⟩ : Point) ∈ circleLoop fuel cx cy x y d := by
  intro fuel
  induction fuel with
  | zero => intro x y d a b; simp [circleLoop]
  | succ n ih =>
    intro x y d a b
    simp only [circleLoop]
    by_cases hxy : x ≤ y
    · rw [if_pos hxy]
      by_cases hd : d < 0 <;> [rw [if_pos hd]; rw [if_neg hd]] <;>
        · simp only [List.mem_append, List.mem_cons, List.not_mem_nil, or_false,
            Point.mk.injEq]
          refine or_congr ⟨?_, ?_⟩ (ih _ _ _ _ _) <;>
            · rintro (h | h | h | h | h | h | h | h)
              · exact Or.inr (Or.inr (Or.inr (Or.inr (Or.inl ⟨by omega, by omega⟩))))
              · exact Or.inr (Or.inr (Or.inr (Or.inr (Or.inr (Or.inl ⟨by omega, by omega⟩)))))
              · exact Or.inr (Or.inr (Or.inr (Or.inr (Or.inr (Or.inr (Or.inl ⟨by omega, by omega⟩))))))
              · exact Or.inr (Or.inr (Or.inr (Or.inr (Or.inr (Or.inr (Or.inr (⟨by omega, by omega⟩)))))))
              · exact Or.inl ⟨by omega, by omega⟩
              · exact Or.inr (Or.inl ⟨by omega, by omega⟩)
              · exact Or.inr (Or.inr (Or.inl ⟨by omega, by omega⟩))
              · exact Or.inr (Or.inr (Or.inr (Or.inl ⟨by omega, by omega⟩)))
    · rw [if_neg hxy]
      simp

theorem circleLoop_swap (cx cy : ℤ) : ∀ (fuel : ℕ) (x y d a b : ℤ),
    (⟨a, b⟩ : Point) ∈ circleLoop fuel cx cy x y d ↔
      (⟨cx - cy + b, cy - cx + a⟩ : Point) ∈ circleLoop fuel cx cy x y d := by
  intro fuel
  induction fuel with
  | zero => intro x y d a b; simp [circleLoop]
  | succ n ih =>
    intro x y d a b
    simp only [circleLoop]
    by_cases hxy : x ≤ y
    · rw [if_pos hxy]
      by_cases hd : d < 0 <;> [rw [if_pos hd]; rw [if_neg hd]] <;>
        · simp only [List.mem_append, List.mem_cons, List.not_mem_nil, or_false,
            Point.mk.injEq]
          refine or_congr ⟨?_, ?_⟩ (ih _ _ _ _ _) <;>
            · rintro (h | h | h | h | h | h | h | h)
              · exact Or.inr (Or.inl ⟨by omega, by omega⟩)
              · exact Or.inl ⟨by omega, by omega⟩
              · exact Or.inr (Or.inr (Or.inr (Or.inr (Or.inr (Or.inl ⟨by omega, by omega⟩)))))
              · exact Or.inr (Or.inr (Or.inr (Or.inr (Or.inl ⟨by omega, by omega⟩))))
              · exact Or.inr (Or.inr (Or.inr (Or.inl ⟨by omega, by omega⟩)))
              · exact Or.inr (Or.inr (Or.inl ⟨by omega, by omega⟩))
              · exact Or.inr (Or.inr (Or.inr (Or.inr (Or.inr (Or.inr (Or.inr (⟨by omega, by omega⟩)))))))
              · exact Or.inr (Or.inr (Or.inr (Or.inr (Or.inr (Or.inr (Or.inl ⟨by omega, by omega⟩))))))
    · rw [if_neg hxy]
      simp

end Algorithms

/-! ## Transform engine (`src/tp1/utils/transforms.py`,
`src/tp1/tools/select_transform.py`) -/

namespace Transforms

/-- `scale_point_xy_f`: scale a point about a pivot with independent
factors, in exact arithmetic. -/
def scale_point_xy_f (px py cx cy sx sy : ℚ) : ℚ × ℚ :=
  (cx + sx * (px - cx), cy + sy * (py - cy))

/-- `scale_point_xy_i`: integer-rounded anisotropic scaling. -/
def scale_point_xy_i (px py : ℤ) (cx cy sx sy : ℚ) : ℤ × ℤ :=
  let p := scale_point_xy_f px py cx cy sx sy
  (roundEven p.1, roundEven p.2)

/-- `rotate_point_f`, with the cosine and sine of the angle supplied as
exact rationals (the Python source computes them with
`math.cos`/`math.sin`, which have no exact counterpart on `ℚ`). -/
def rotate_point_f (px py cx cy ct st : ℚ) : ℚ × ℚ :=
  (cx + ct * (px - cx) - st * (py - cy), cy + st * (px - cx) + ct * (py - cy))

/-- `rotate_point_i`: integer-rounded rotation. -/
def rotate_point_i (px py : ℤ) (cx cy ct st : ℚ) : ℤ × ℤ :=
  let p := rotate_point_f px py cx cy ct st
  (roundEven p.1, roundEven p.2)

/-- The snapshot of one line taken at gesture start
(`tr.lines_snapshot` entries: absolute endpoint coordinates). -/
structure LineSnap where
  x0 : ℤ
  y0 : ℤ
  x1 : ℤ
  y1 : ℤ
deriving DecidableEq, Repr

/-- The snapshot of one circle taken at gesture start
(`tr.circles_snapshot` entries: absolute center and radius). -/
structure CircleSnap where
  cx : ℤ
  cy : ℤ
  r : ℤ
deriving DecidableEq, Repr

/-- `math.copysign(m, s)` for our use sites (`s` is never a negative
zero because the caller substitutes `1.0` for `0`). -/
def copysign (m s : ℚ) : ℚ := if s < 0 then -m else m

/-- The uniform-modifier normalization at the top of
`SelectTransformTool._apply_scale`: with Shift held on a corner handle the
larger-magnitude factor wins, sign-preserved per axis. -/
def uniformAdjust (uniform affectX affectY : Bool) (sx sy : ℚ) : ℚ × ℚ :=
  if uniform ∧ affectX ∧ affectY then
    if |sx| ≥ |sy| then (sx, copysign |sx| (if sy ≠ 0 then sy else 1))
    else (copysign |sy| (if sx ≠ 0 then sx else 1), sy)
  else (sx, sy)

/-- `_apply_move` on one line snapshot: add the drag delta to the
snapshotted endpoints. -/
def applyMoveLineSnap (s : LineSnap) (dx dy : ℤ) : LineSnap :=
  ⟨s.x0 + dx, s.y0 + dy, s.x1 + dx, s.y1 + dy⟩

/-- `_apply_move` on one circle snapshot: move the center, write back the
snapshotted radius. -/
def applyMoveCircleSnap (s : CircleSnap) (dx dy : ℤ) : CircleSnap :=
  ⟨s.cx + dx, s.cy + dy, s.r⟩

/-- `_apply_rotate` on one circle snapshot: rotate the center about the
pivot, write back the snapshotted radius. -/
def applyRotateCircleSnap (s : CircleSnap) (cx cy ct st : ℚ) : CircleSnap :=
  let q := rotate_point_i s.cx s.cy cx cy ct st
  ⟨q.1, q.2, s.r⟩

/-- `_apply_scale` on one line snapshot: scale both endpoints about the
pivot. -/
def applyScaleLineSnap (s : LineSnap) (px py sx sy : ℚ) : LineSnap :=
  let q0 := scale_point_xy_i s.x0 s.y0 px py sx sy
  let q1 := scale_point_xy_i s.x1 s.y1 px py sx sy
  ⟨q0.1, q0.2, q1.1, q1.2⟩

/-- `_apply_scale` on one circle snapshot: scale the center about the
pivot; the radius factor is `|sx|` under the uniform modifier and
`max(|sx|, |sy|)` otherwise, and the new radius is clamped at `0`. -/
def applyScaleCircleSnap (s : CircleSnap) (px py sx sy : ℚ) (uniform : Bool) : CircleSnap :=
  let q := scale_point_xy_i s.cx s.cy px py sx sy
  let sr := if uniform then |sx| else max |sx| |sy|
  ⟨q.1, q.2, max 0 (roundEven ((s.r : ℚ) * sr))⟩

end Transforms

/-! ## Claim theorems -/

section Claims

open Clipping

/-- C2, counterexample.  The two clippers do NOT agree on rejection for
every segment/rect pair: against rect `(0,0,10,10)` the segment
`(9,-1)-(19,6)` misses the rectangle (it crosses `y = 0` at `x = 73/7 > 10`
and crosses `x = 10` at `y = -3/10 < 0`), so Liang–Barsky rejects it, but
Cohen–Sutherland rounds the top-edge intersection `73/7` down to `10` and
accepts the degenerate segment `(10,0)-(10,0)`. -/
theorem cs_lb_rejection_disagree :
    cohen_sutherland_clip ⟨9, -1⟩ ⟨19, 6⟩ (0, 0, 10, 10) = some (⟨10, 0⟩, ⟨10, 0⟩) ∧
      liang_barsky_clip ⟨9, -1⟩ ⟨19, 6⟩ (0, 0, 10, 10) = none := by
  constructor
  · have h73 : roundEven (73/7 : ℚ) = 10 := by
      unfold roundEven
      rw [show ⌊(73/7 : ℚ)⌋ = 10 by norm_num [Int.floor_eq_iff]]
      norm_num
    have s1 : csStep (0, 0, 10, 10) ⟨9, -1, 19, 6⟩ = Sum.inr ⟨10, 0, 19, 6⟩ := by
      unfold csStep csIntersect code edges INSIDE LEFT RIGHT BOTTOM TOP
      norm_num [show (0 ||| 8 : ℕ) = 8 by decide, show (2 ||| 0 : ℕ) = 2 by decide,
        show (8 ||| 2 : ℕ) = 10 by decide, show (8 &&& 2 : ℕ) = 0 by decide,
        show (8 &&& 8 : ℕ) = 8 by decide, h73,
        show roundEven (0 : ℚ) = 0 by unfold roundEven; norm_num]
    have s2 : csStep (0, 0, 10, 10) ⟨10, 0, 19, 6⟩ = Sum.inr ⟨10, 0, 10, 0⟩ := by
      unfold csStep csIntersect code edges INSIDE LEFT RIGHT BOTTOM TOP
      norm_num [show (0 ||| 0 : ℕ) = 0 by decide, show (2 ||| 0 : ℕ) = 2 by decide,
        show (0 ||| 2 : ℕ) = 2 by decide, show (0 &&& 2 : ℕ) = 0 by decide,
        show (2 &&& 8 : ℕ) = 0 by decide, show (2 &&& 4 : ℕ) = 0 by decide,
        show (2 &&& 2 : ℕ) = 2 by decide,
        show roundEven (0 : ℚ) = 0 by unfold roundEven; norm_num,
        show roundEven (10 : ℚ) = 10 by unfold roundEven; norm_num]
    have s3 : csStep (0, 0, 10, 10) ⟨10, 0, 10, 0⟩ = Sum.inl (some (⟨10, 0⟩, ⟨10, 0⟩)) := by
      unfold csStep csIntersect code edges INSIDE LEFT RIGHT BOTTOM TOP
      norm_num [show (0 ||| 0 : ℕ) = 0 by decide]
    unfold cohen_sutherland_clip
    simp only [csLoop, s1, s2, s3, Option.join]
    rfl
  · unfold liang_barsky_clip edges
    norm_num [lbStep]

/-- C2, amended.  On the spec's trivial-reject example the two clippers do
agree: the segment `(100,100)-(200,200)` lies entirely outside the rect
`(0,0,10,10)` and both algorithms return "fully outside" (`none`).  (The
general agreement-on-rejection property is refuted by
`cs_lb_rejection_disagree`.) -/
theorem cs_lb_trivial_reject_agree :
    cohen_sutherland_clip ⟨100, 100⟩ ⟨200, 200⟩ (0, 0, 10, 10) = none ∧
      liang_barsky_clip ⟨100, 100⟩ ⟨200, 200⟩ (0, 0, 10, 10) = none := by
  constructor
  · decide
  · unfold liang_barsky_clip edges
    norm_num [lbStep]

/-- C5.  Both clippers use the inclusive boundary convention: whenever both
endpoints satisfy `left ≤ x ≤ left + w` and `top ≤ y ≤ top + h` (so points
with `x = right` or `y = bottom` count as inside), `cohen_sutherland_clip`
and `liang_barsky_clip` both return the original endpoints unchanged. -/
theorem clippers_inclusive_inside_identity (l t w h x0 y0 x1 y1 : ℤ)
    (h0l : l ≤ x0) (h0r : x0 ≤ l + w) (h0t : t ≤ y0) (h0b : y0 ≤ t + h)
    (h1l : l ≤ x1) (h1r : x1 ≤ l + w) (h1t : t ≤ y1) (h1b : y1 ≤ t + h) :
    cohen_sutherland_clip ⟨x0, y0⟩ ⟨x1, y1⟩ (l, t, w, h) = some (⟨x0, y0⟩, ⟨x1, y1⟩) ∧
      liang_barsky_clip ⟨x0, y0⟩ ⟨x1, y1⟩ (l, t, w, h) = some (⟨x0, y0⟩, ⟨x1, y1⟩) := by
  constructor
  · have hs : csStep (l, t, w, h) ⟨x0, y0, x1, y1⟩ = Sum.inl (some (⟨x0, y0⟩, ⟨x1, y1⟩)) := by
      unfold csStep
      rw [code_eq_zero h0l h0r h0t h0b, code_eq_zero h1l h1r h1t h1b]
      rw [if_pos (by decide)]
    unfold cohen_sutherland_clip
    simp only [csLoop, hs, Option.join]
    rfl
  · unfold liang_barsky_clip edges
    simp only [List.foldl]
    rw [lbStep_keep01 (fun _ => by omega) (fun _ => by omega) (fun _ => by omega)]
    rw [lbStep_keep01 (fun _ => by omega) (fun _ => by omega) (fun _ => by omega)]
    rw [lbStep_keep01 (fun _ => by omega) (fun _ => by omega) (fun _ => by omega)]
    rw [lbStep_keep01 (fun _ => by omega) (fun _ => by omega) (fun _ => by omega)]
    have e0x : (x0 : ℚ) + 0 * ((x1 - x0 : ℤ) : ℚ) = ((x0 : ℤ) : ℚ) := by push_cast; ring
    have e0y : (y0 : ℚ) + 0 * ((y1 - y0 : ℤ) : ℚ) = ((y0 : ℤ) : ℚ) := by push_cast; ring
    have e1x : (x0 : ℚ) + 1 * ((x1 - x0 : ℤ) : ℚ) = ((x1 : ℤ) : ℚ) := by push_cast; ring
    have e1y : (y0 : ℚ) + 1 * ((y1 - y0 : ℤ) : ℚ) = ((y1 : ℤ) : ℚ) := by push_cast; ring
    simp only [e0x, e0y, e1x, e1y, roundEven_intCast]

/-- C5 witness: the segment `(6,2)-(3,5)` lies inside rect `(2,2,4,4)` with
its first endpoint on the inclusive `x = right = 6` boundary, and both
clippers return it unchanged. -/
theorem clippers_inclusive_inside_identity_witness :
    ((2 : ℤ) ≤ 6 ∧ (6 : ℤ) ≤ 2 + 4 ∧ (2 : ℤ) ≤ 2 ∧ (2 : ℤ) ≤ 2 + 4 ∧
        (2 : ℤ) ≤ 3 ∧ (3 : ℤ) ≤ 2 + 4 ∧ (2 : ℤ) ≤ 5 ∧ (5 : ℤ) ≤ 2 + 4) ∧
      cohen_sutherland_clip ⟨6, 2⟩ ⟨3, 5⟩ (2, 2, 4, 4) = some (⟨6, 2⟩, ⟨3, 5⟩) ∧
        liang_barsky_clip ⟨6, 2⟩ ⟨3, 5⟩ (2, 2, 4, 4) = some (⟨6, 2⟩, ⟨3, 5⟩) :=
  ⟨by decide,
    clippers_inclusive_inside_identity 2 2 4 4 6 2 3 5 (by decide) (by decide) (by decide)
      (by decide) (by decide) (by decide) (by decide) (by decide)⟩

/-- C1.  `clip_lines` rebuilds the line list exactly as the spec says:
with an empty selection every line is a candidate, otherwise only selected
indices are; non-candidates pass through unchanged in their original
relative order; a candidate is dropped (and counted in `removed`) when its
clip returns `none`, and otherwise replaced by a line with the new
endpoints and the same `algo` tag (and counted in `kept`); the returned
pair is `(kept, removed)` and the new list length is `kept` plus the
number of non-candidates. -/
theorem clip_lines_rebuild_spec (algo : String) (scene : Scene) (rect : Rect4)
    (selL selC : Finset ℕ) :
    (Tools.clip_lines algo scene (some rect) selL selC).1.lines =
        Tools.clipLinesSpecList algo rect selL scene.lines ∧
      (Tools.clip_lines algo scene (some rect) selL selC).2.2.2.1 =
        Tools.keptSpec algo rect selL scene.lines ∧
      (Tools.clip_lines algo scene (some rect) selL selC).2.2.2.2 =
        Tools.removedSpec algo rect selL scene.lines ∧
      (Tools.clip_lines algo scene (some rect) selL selC).1.lines.length =
        (Tools.clip_lines algo scene (some rect) selL selC).2.2.2.1 +
          Tools.nonCandidateCount selL scene.lines := by
  have hspec := Tools.clipLinesLoop_eq_spec algo rect selL scene.lines 0
  have hlen := Tools.clipLinesLoop_length algo rect selL scene.lines 0
  have henum : scene.lines.enumFrom 0 = scene.lines.enum := rfl
  rw [hspec] at hlen
  simp only [henum] at hlen
  refine ⟨?_, ?_, ?_, ?_⟩ <;>
    simp only [Tools.clip_lines, Tools.clipLinesSpecList, Tools.keptSpec,
      Tools.removedSpec, Tools.nonCandidateCount, hspec, henum]
  exact hlen

/-- C9.  After `clip_lines` rebuilds the scene's line list (a clip window
is set), the line-selection set is left with no stale index: every index
remaining in it is below the new line count (the source clears the
selection outright). -/
theorem clip_lines_selection_sanitized (algo : String) (scene : Scene) (rect : Rect4)
    (selL selC : Finset ℕ) :
    (Tools.clip_lines algo scene (some rect) selL selC).2.1 ⊆
      Finset.range (Tools.clip_lines algo scene (some rect) selL selC).1.lines.length := by
  intro i hi
  simp [Tools.clip_lines] at hi

/-- C10.  `clip_lines` touches only the line list and the line selection:
for every scene, window (set or not), algorithm and selection arguments,
the circle list and the circle-selection set are returned exactly as they
were. -/
theorem clip_lines_preserves_circles (algo : String) (scene : Scene)
    (window : Option Rect4) (selL selC : Finset ℕ) :
    (Tools.clip_lines algo scene window selL selC).1.circles = scene.circles ∧
      (Tools.clip_lines algo scene window selL selC).2.2.1 = selC := by
  cases window <;> exact ⟨rfl, rfl⟩

/-- C3.  Endpoint fidelity of the line rasterizers: both DDA and Bresenham
emit a finite pixel sequence whose first pixel is exactly `p0` and whose
last pixel is exactly `p1`; the DDA sequence has exactly
`max(|dx|, |dy|) + 1` pixels, and when `steps = 0` it is the single pixel
`p0`. -/
theorem line_rasterizers_endpoint_fidelity (p0 p1 : Point) :
    (Algorithms.draw_line_dda p0 p1).head? = some p0 ∧
      (Algorithms.draw_line_dda p0 p1).getLast? = some p1 ∧
      (Algorithms.draw_line_dda p0 p1).length =
        max (p1.x - p0.x).natAbs (p1.y - p0.y).natAbs + 1 ∧
      (max (p1.x - p0.x).natAbs (p1.y - p0.y).natAbs = 0 →
        Algorithms.draw_line_dda p0 p1 = [p0]) ∧
      (Algorithms.draw_line_bresenham p0 p1).head? = some p0 ∧
      (Algorithms.draw_line_bresenham p0 p1).getLast? = some p1 := by
  obtain ⟨x0, y0⟩ := p0
  obtain ⟨x1, y1⟩ := p1
  simp only [Algorithms.draw_line_dda, Algorithms.draw_line_bresenham]
  by_cases hsteps : max (x1 - x0).natAbs (y1 - y0).natAbs = 0
  · have hx : x1 = x0 := by omega
    have hy : y1 = y0 := by omega
    subst hx
    subst hy
    rw [if_pos hsteps]
    refine ⟨rfl, rfl, by rw [hsteps]; rfl, fun _ => rfl, ?_, ?_⟩
    · have habs : |x1 - x1| = 0 := by simp
      have habs' : |y1 - y1| = 0 := by simp
      rw [habs, habs']
      exact Algorithms.bresLoop_head 0 _ _ _ _ _ _ _ _ _
    · have habs : |x1 - x1| = 0 := by simp
      have habs' : |y1 - y1| = 0 := by simp
      rw [habs, habs']
      simp [Algorithms.bresLoop]
  · rw [if_neg hsteps]
    set S := max (x1 - x0).natAbs (y1 - y0).natAbs with hS
    have hQ : (S : ℚ) ≠ 0 := by exact_mod_cast hsteps
    refine ⟨?_, ?_, ?_, fun h => absurd h hsteps, ?_, ?_⟩
    · rw [Algorithms.ddaLoop_head]
      rw [show roundEven ((x0 : ℤ) : ℚ) = x0 from roundEven_intCast x0,
        show roundEven ((y0 : ℤ) : ℚ) = y0 from roundEven_intCast y0]
    · rw [Algorithms.ddaLoop_getLast]
      have ex : (x0 : ℚ) + (S : ℕ) * (((x1 - x0 : ℤ) : ℚ) / (S : ℕ)) = ((x1 : ℤ) : ℚ) := by
        field_simp
      have ey : (y0 : ℚ) + (S : ℕ) * (((y1 - y0 : ℤ) : ℚ) / (S : ℕ)) = ((y1 : ℤ) : ℚ) := by
        field_simp
      rw [ex, ey, roundEven_intCast, roundEven_intCast]
    · rw [Algorithms.ddaLoop_length]
    · have habs : (0 : ℤ) ≤ |x1 - x0| := abs_nonneg _
      have habs' : (0 : ℤ) ≤ |y1 - y0| := abs_nonneg _
      have hfuel : (|x1 - x0| + |y1 - y0| + 1).toNat = (|x1 - x0| + |y1 - y0|).toNat + 1 := by
        omega
      rw [hfuel]
      exact Algorithms.bresLoop_head _ _ _ _ _ _ _ _ _ _
    · have hsx : (if x0 < x1 then (1 : ℤ) else -1) = 1 ∨
          (if x0 < x1 then (1 : ℤ) else -1) = -1 := by
        split_ifs <;> simp
      have hsy : (if y0 < y1 then (1 : ℤ) else -1) = 1 ∨
          (if y0 < y1 then (1 : ℤ) else -1) = -1 := by
        split_ifs <;> simp
      have hrx : (if x0 < x1 then (1 : ℤ) else -1) * (x1 - x0) = |x1 - x0| := by
        rw [Int.abs_eq_natAbs]
        split_ifs with h <;> omega
      have hry : (if y0 < y1 then (1 : ℤ) else -1) * (y1 - y0) = |y1 - y0| := by
        rw [Int.abs_eq_natAbs]
        split_ifs with h <;> omega
      apply Algorithms.bresLoop_getLast _ _ _ _ _ _ (abs_nonneg _) (abs_nonneg _) hsx hsy
      · rw [hrx]
        exact abs_nonneg _
      · rw [hrx]
      · rw [hry]
        exact abs_nonneg _
      · rw [hry]
      · rw [hrx, hry]
        ring
      · rw [hrx, hry, Int.abs_eq_natAbs, Int.abs_eq_natAbs]
        omega

/-- C3 witness: for the degenerate segment from `(3,4)` to itself,
`steps = 0` and the DDA rasterization is the single pixel `(3,4)`. -/
theorem line_rasterizers_endpoint_fidelity_witness :
    max ((3 : ℤ) - 3).natAbs ((4 : ℤ) - 4).natAbs = 0 ∧
      Algorithms.draw_line_dda ⟨3, 4⟩ ⟨3, 4⟩ = [⟨3, 4⟩] :=
  ⟨by decide, (line_rasterizers_endpoint_fidelity ⟨3, 4⟩ ⟨3, 4⟩).2.2.2.1 (by decide)⟩

/-- C7.  The pixel set emitted by the Bresenham midpoint circle rasterizer
is invariant under the 8 standard reflections about the center (negating
and/or swapping the offsets) whenever `r > 0`; for `r ≤ 0` a single pixel
at the center is emitted. -/
theorem bresenham_circle_symmetry (c : Point) (r : ℤ) :
    (0 < r → ∀ u v : ℤ,
      (((⟨c.x + u, c.y + v⟩ : Point) ∈ Algorithms.draw_circle_bresenham c r) ↔
          (⟨c.x - u, c.y + v⟩ : Point) ∈ Algorithms.draw_circle_bresenham c r) ∧
        (((⟨c.x + u, c.y + v⟩ : Point) ∈ Algorithms.draw_circle_bresenham c r) ↔
          (⟨c.x + u, c.y - v⟩ : Point) ∈ Algorithms.draw_circle_bresenham c r) ∧
        (((⟨c.x + u, c.y + v⟩ : Point) ∈ Algorithms.draw_circle_bresenham c r) ↔
          (⟨c.x - u, c.y - v⟩ : Point) ∈ Algorithms.draw_circle_bresenham c r) ∧
        (((⟨c.x + u, c.y + v⟩ : Point) ∈ Algorithms.draw_circle_bresenham c r) ↔
          (⟨c.x + v, c.y + u⟩ : Point) ∈ Algorithms.draw_circle_bresenham c r) ∧
        (((⟨c.x + u, c.y + v⟩ : Point) ∈ Algorithms.draw_circle_bresenham c r) ↔
          (⟨c.x - v, c.y + u⟩ : Point) ∈ Algorithms.draw_circle_bresenham c r) ∧
        (((⟨c.x + u, c.y + v⟩ : Point) ∈ Algorithms.draw_circle_bresenham c r) ↔
          (⟨c.x + v, c.y - u⟩ : Point) ∈ Algorithms.draw_circle_bresenham c r) ∧
        (((⟨c.x + u, c.y + v⟩ : Point) ∈ Algorithms.draw_circle_bresenham c r) ↔
          (⟨c.x - v, c.y - u⟩ : Point) ∈ Algorithms.draw_circle_bresenham c r)) ∧
      (r ≤ 0 → Algorithms.draw_circle_bresenham c r = [⟨c.x, c.y⟩]) := by
  constructor
  · intro hr u v
    have hne : ¬ r ≤ 0 := not_le.2 hr
    unfold Algorithms.draw_circle_bresenham
    rw [if_neg hne]
    have Hx := fun a b =>
      Algorithms.circleLoop_negx c.x c.y ((r + 2).toNat) 0 r (1 - r) a b
    have Hy := fun a b =>
      Algorithms.circleLoop_negy c.x c.y ((r + 2).toNat) 0 r (1 - r) a b
    have Hs := fun a b =>
      Algorithms.circleLoop_swap c.x c.y ((r + 2).toNat) 0 r (1 - r) a b
    have hx1 := Hx (c.x + u) (c.y + v)
    rw [show 2 * c.x - (c.x + u) = c.x - u from by ring] at hx1
    have hy1 := Hy (c.x + u) (c.y + v)
    rw [show 2 * c.y - (c.y + v) = c.y - v from by ring] at hy1
    have hy2 := Hy (c.x - u) (c.y + v)
    rw [show 2 * c.y - (c.y + v) = c.y - v from by ring] at hy2
    have hs1 := Hs (c.x + u) (c.y + v)
    rw [show c.x - c.y + (c.y + v) = c.x + v from by ring,
      show c.y - c.x + (c.x + u) = c.y + u from by ring] at hs1
    have hx2 := Hx (c.x + v) (c.y + u)
    rw [show 2 * c.x - (c.x + v) = c.x - v from by ring] at hx2
    have hy3 := Hy (c.x + v) (c.y + u)
    rw [show 2 * c.y - (c.y + u) = c.y - u from by ring] at hy3
    have hy4 := Hy (c.x - v) (c.y + u)
    rw [show 2 * c.y - (c.y + u) = c.y - u from by ring] at hy4
    exact ⟨hx1, hy1, hx1.trans hy2, hs1, hs1.trans hx2, hs1.trans hy3,
      (hs1.trans hx2).trans hy4⟩
  · intro hr0
    unfold Algorithms.draw_circle_bresenham
    rw [if_pos hr0]

/-- C7 witness: for the unit-radius-2 circle at the origin, the pixel
`(2, 1)` is present exactly when its vertical mirror `(-2, 1)` is; and a
non-positive radius yields the single center pixel. -/
theorem bresenham_circle_symmetry_witness :
    ((0 : ℤ) < 2 ∧
        (((⟨0 + 2, 0 + 1⟩ : Point) ∈ Algorithms.draw_circle_bresenham ⟨0, 0⟩ 2) ↔
          (⟨0 - 2, 0 + 1⟩ : Point) ∈ Algorithms.draw_circle_bresenham ⟨0, 0⟩ 2)) ∧
      ((-1 : ℤ) ≤ 0 ∧ Algorithms.draw_circle_bresenham ⟨5, 5⟩ (-1) = [⟨5, 5⟩]) :=
  ⟨⟨by decide, ((bresenham_circle_symmetry ⟨0, 0⟩ 2).1 (by decide) 2 1).1⟩,
    ⟨by decide, (bresenham_circle_symmetry ⟨5, 5⟩ (-1)).2 (by decide)⟩⟩

/-- C6.  Circle radii are never negative: construction clamps a negative
radius to `0`, and each scene operation that writes a circle's radius
(move, rotate, scale) keeps it non-negative; under scale the new radius is
`max(0, round(r0 * factor))` with `factor = |sx|` when the uniform
modifier is active and `max(|sx|, |sy|)` otherwise. -/
theorem circle_radius_nonneg_invariant :
    (∀ (c : Point) (r : ℤ) (algo : CircleAlgo), 0 ≤ (Circle.make c r algo).r) ∧
      (∀ (s : Transforms.CircleSnap) (dx dy : ℤ), 0 ≤ s.r →
        0 ≤ (Transforms.applyMoveCircleSnap s dx dy).r) ∧
      (∀ (s : Transforms.CircleSnap) (cx cy ct st : ℚ), 0 ≤ s.r →
        0 ≤ (Transforms.applyRotateCircleSnap s cx cy ct st).r) ∧
      (∀ (s : Transforms.CircleSnap) (px py sx sy : ℚ) (uniform : Bool),
        0 ≤ (Transforms.applyScaleCircleSnap s px py sx sy uniform).r ∧
          (Transforms.applyScaleCircleSnap s px py sx sy uniform).r =
            max 0 (roundEven ((s.r : ℚ) * (if uniform then |sx| else max |sx| |sy|)))) := by
  refine ⟨?_, ?_, ?_, ?_⟩
  · intro c r algo
    unfold Circle.make
    split_ifs <;> simp only [] <;> omega
  · intro s dx dy h
    exact h
  · intro s cx cy ct st h
    exact h
  · intro s px py sx sy uniform
    exact ⟨le_max_left 0 _, rfl⟩

/-- C6 witness: a circle constructed with radius `-3` is clamped to `0`;
moving, rotating and scaling a circle of radius `5` keep the radius
non-negative. -/
theorem circle_radius_nonneg_invariant_witness :
    0 ≤ (Circle.make ⟨1, 2⟩ (-3)).r ∧
      ((0 : ℤ) ≤ 5 ∧ 0 ≤ (Transforms.applyMoveCircleSnap ⟨1, 2, 5⟩ 3 4).r) ∧
      ((0 : ℤ) ≤ 5 ∧ 0 ≤ (Transforms.applyRotateCircleSnap ⟨1, 2, 5⟩ 0 0 1 0).r) ∧
      0 ≤ (Transforms.applyScaleCircleSnap ⟨1, 2, 5⟩ 0 0 (-2) 3 false).r :=
  ⟨circle_radius_nonneg_invariant.1 ⟨1, 2⟩ (-3) .BRESENHAM,
    ⟨by decide, circle_radius_nonneg_invariant.2.1 ⟨1, 2, 5⟩ 3 4 (by decide)⟩,
    ⟨by decide, circle_radius_nonneg_invariant.2.2.1 ⟨1, 2, 5⟩ 0 0 1 0 (by decide)⟩,
    (circle_radius_nonneg_invariant.2.2.2 ⟨1, 2, 5⟩ 0 0 (-2) 3 false).1⟩

/-- The uniform-modifier normalization maps factors `(1, 1)` to
`(1, 1)`. -/
theorem uniformAdjust_one (uniform affectX affectY : Bool) :
    Transforms.uniformAdjust uniform affectX affectY 1 1 = (1, 1) := by
  unfold Transforms.uniformAdjust Transforms.copysign
  split_ifs <;> norm_num at *

/-- C8.  Scaling is the identity at factor 1: the rounded scale map with
`sx = sy = 1` returns every integer point unchanged for every rational
pivot, and applying the scale gesture with factors `1.0` (through the
uniform-modifier normalization) to a snapshotted line or circle leaves all
coordinates and the radius unchanged. -/
theorem scale_identity_at_one :
    (∀ (px py : ℤ) (cx cy : ℚ), Transforms.scale_point_xy_i px py cx cy 1 1 = (px, py)) ∧
      (∀ (s : Transforms.LineSnap) (cx cy : ℚ) (uniform affectX affectY : Bool),
        Transforms.applyScaleLineSnap s cx cy
            (Transforms.uniformAdjust uniform affectX affectY 1 1).1
            (Transforms.uniformAdjust uniform affectX affectY 1 1).2 = s) ∧
      (∀ (s : Transforms.CircleSnap) (cx cy : ℚ) (uniform affectX affectY : Bool),
        0 ≤ s.r →
          Transforms.applyScaleCircleSnap s cx cy
              (Transforms.uniformAdjust uniform affectX affectY 1 1).1
              (Transforms.uniformAdjust uniform affectX affectY 1 1).2 uniform = s) := by
  have hpt : ∀ (px py : ℤ) (cx cy : ℚ),
      Transforms.scale_point_xy_i px py cx cy 1 1 = (px, py) := by
    intro px py cx cy
    unfold Transforms.scale_point_xy_i Transforms.scale_point_xy_f
    simp only []
    rw [show cx + 1 * ((px : ℚ) - cx) = ((px : ℤ) : ℚ) from by ring,
      show cy + 1 * ((py : ℚ) - cy) = ((py : ℤ) : ℚ) from by ring,
      roundEven_intCast, roundEven_intCast]
  refine ⟨hpt, ?_, ?_⟩
  · intro s cx cy uniform affectX affectY
    rw [uniformAdjust_one]
    unfold Transforms.applyScaleLineSnap
    rw [hpt s.x0 s.y0 cx cy, hpt s.x1 s.y1 cx cy]
  · intro s cx cy uniform affectX affectY hr
    rw [uniformAdjust_one]
    unfold Transforms.applyScaleCircleSnap
    rw [hpt s.cx s.cy cx cy]
    have hsr : (if uniform then |(1 : ℚ)| else max |(1 : ℚ)| |(1 : ℚ)|) = 1 := by
      split_ifs <;> norm_num
    rw [hsr]
    simp only []
    rw [mul_one, roundEven_intCast, max_eq_right hr]

/-- C8 witness: scaling the point `(7, -3)` by `(1, 1)` about the pivot
`(1/2, 2/3)` returns it unchanged, and a snapshotted circle of radius `4`
is left unchanged by the scale gesture at factors `1.0`. -/
theorem scale_identity_at_one_witness :
    Transforms.scale_point_xy_i 7 (-3) (1/2) (2/3) 1 1 = (7, -3) ∧
      ((0 : ℤ) ≤ 4 ∧
        Transforms.applyScaleCircleSnap ⟨2, 3, 4⟩ (1/2) (2/3)
            (Transforms.uniformAdjust true true true 1 1).1
            (Transforms.uniformAdjust true true true 1 1).2 true = ⟨2, 3, 4⟩) :=
  ⟨scale_identity_at_one.1 7 (-3) (1/2) (2/3),
    ⟨by decide, scale_identity_at_one.2.2 ⟨2, 3, 4⟩ (1/2) (2/3) true true true (by decide)⟩⟩

/-- C4.  The Cohen–Sutherland clipping loop terminates: for every input
segment and every rect with non-negative width and height, the loop
reaches a definitive answer (accept or reject) within 7 iterations of
clip-and-round, despite re-rounding the intersection point and
recomputing its region code each time.  (`cohen_sutherland_clip` is the
join of this loop run at fuel 7, so it always returns the loop's
answer.) -/
theorem cohen_sutherland_terminates (p0 p1 : Point) (l t w h : ℤ)
    (hw : 0 ≤ w) (hh : 0 ≤ h) :
    (csLoop 7 (l, t, w, h) ⟨p0.x, p0.y, p1.x, p1.y⟩).isSome := by
  apply csLoop_isSome l t w h hw hh
  simp only []
  have := csPhi_le_six l t (l + w) (t + h) p0.x p0.y p1.x p1.y
  omega

/-- C4 witness: the loop terminates on the segment `(9,-1)-(19,6)` against
rect `(0,0,10,10)`. -/
theorem cohen_sutherland_terminates_witness :
    (0 : ℤ) ≤ 10 ∧
      (csLoop 7 ((0 : ℤ), (0 : ℤ), (10 : ℤ), (10 : ℤ)) ⟨9, -1, 19, 6⟩).isSome :=
  ⟨by decide, cohen_sutherland_terminates ⟨9, -1⟩ ⟨19, 6⟩ 0 0 10 10 (by decide) (by decide)⟩

end Claims

end TP1
